import Mathlib

/-!
Verification of the `path_manager` repository (src/pathmanager/pathmanager.py).

The Python program mirrors a directory tree in memory: a `Folder` dataclass
holds `name`, `parent_path`, a dict `subfolders` (sanitized child name to
child `Folder`) and a dict `files` (sanitized file name to absolute path).
`PathManager` is the root `Folder`; it recursively scans the filesystem on
construction and on `reload()`.

Embedding conventions:
- Python dicts become association lists `List (String × α)`; dict assignment
  is `insertA` (update in place, or append when the key is new), `del` is
  `eraseA`, and `in` or `[]` is `lookupA`.  Python guarantees unique keys;
  theorems that need this carry a `Nodup` hypothesis on the key list.
- Python `str.replace(old, new)` with one-character arguments replaces each
  occurrence of that character, which is exactly a character-wise map; we
  spell it with explicit `List.map` on `String.data`.
- The filesystem is the external collaborator of the spec: for scanning it is
  a tree of `Entry` values (the results of `os.scandir`); for the mutation
  claims it is an `FSState` of directory and file paths, with `rmtree`,
  `removeFileFS` and `makedirsFS` as the delete/create primitives.
- `os.path.join` is `pjoin`, faithful to posixpath for a relative second
  component; `os.path.basename` / `os.path.dirname` are `basenameStr` /
  `dirnameStr`.
-/

set_option autoImplicit false

/-! ## Character substitutions (Python single-character str.replace) -/

/-- Character substitution of `'_'` by `' '`, as in `item.replace('_', ' ')`. -/
def swapUS (c : Char) : Char := if c = '_' then ' ' else c

/-- Character substitution of `' '` by `'_'`, as in `name.replace(' ', '_')`. -/
def swapSU (c : Char) : Char := if c = ' ' then '_' else c

/-- Character substitution of `'.'` by `'_'`, as in `name.replace('.', '_')`. -/
def swapDU (c : Char) : Char := if c = '.' then '_' else c

/-- Apply a character substitution to every character of a string. -/
def mapStr (g : Char → Char) (s : String) : String := ⟨s.data.map g⟩

/-- `item.replace('_', ' ')` from `Folder.__getattr__` and `Folder.remove`. -/
def underToSpace (s : String) : String := mapStr swapUS s

/-- `name.replace(' ', '_')`: the key under which a directory is stored. -/
def sanitizeDir (s : String) : String := mapStr swapSU s

/-- `entry.name.replace('.', '_').replace(' ', '_')`: the key under which a
file is stored (from `PathManager._load_nested_directories`). -/
def sanitizeFile (s : String) : String := mapStr swapSU (mapStr swapDU s)

/-! ## Paths -/

/-- `os.path.join a b` for a relative `b` (names never start with `/`):
empty `a` yields `b`; otherwise a separator is added unless `a` already ends
with one. -/
def pjoin (a b : String) : String :=
  if a = "" then b
  else if a.data.getLast? = some '/' then a ++ b
  else a ++ "/" ++ b

/-- `os.path.join` folded over a list of path segments. -/
def joinAll (base : String) : List String → String
  | [] => base
  | s :: rest => joinAll (pjoin base s) rest

/-- `os.path.basename`: the part of the path after the last `/`. -/
def basenameStr (p : String) : String :=
  ⟨(p.data.reverse.takeWhile (fun c => c ≠ '/')).reverse⟩

/-- `os.path.dirname`: the part before the last `/`, with trailing slashes
stripped unless the result consists only of slashes. -/
def dirnameStr (p : String) : String :=
  let hd := (p.data.reverse.dropWhile (fun c => c ≠ '/')).reverse
  if hd.all (fun c => c = '/') then ⟨hd⟩
  else ⟨(hd.reverse.dropWhile (fun c => c = '/')).reverse⟩

/-! ## Association lists (Python dict operations) -/

/-- Dict assignment `m[k] = v`: overwrite in place, or append a new entry. -/
def insertA {α : Type} (m : List (String × α)) (k : String) (v : α) :
    List (String × α) :=
  match m with
  | [] => [(k, v)]
  | (k', v') :: rest => if k' = k then (k, v) :: rest else (k', v') :: insertA rest k v

/-- Dict lookup `m[k]` / membership test `k in m`. -/
def lookupA {α : Type} (m : List (String × α)) (k : String) : Option α :=
  match m with
  | [] => none
  | (k', v) :: rest => if k' = k then some v else lookupA rest k

/-- Dict deletion `del m[k]`. -/
def eraseA {α : Type} (m : List (String × α)) (k : String) : List (String × α) :=
  match m with
  | [] => []
  | (k', v) :: rest => if k' = k then rest else (k', v) :: eraseA rest k

/-- The key list of an association list. -/
def keysA {α : Type} (m : List (String × α)) : List String := m.map Prod.fst

/-- Fold dict assignments over a list of key-value pairs, left to right. -/
def foldIns {α : Type} (m : List (String × α)) : List (String × α) → List (String × α)
  | [] => m
  | (k, v) :: rest => foldIns (insertA m k v) rest

/-- First-some choice on options, used to state lookup characterizations. -/
def orO {α : Type} (a b : Option α) : Option α :=
  match a with
  | some v => some v
  | none => b

/-! ## Association list lemmas -/

@[simp] theorem keysA_nil {α : Type} : keysA ([] : List (String × α)) = [] := rfl

@[simp] theorem keysA_cons {α : Type} (k : String) (v : α) (m : List (String × α)) :
    keysA ((k, v) :: m) = k :: keysA m := rfl

theorem keysA_append {α : Type} (m1 m2 : List (String × α)) :
    keysA (m1 ++ m2) = keysA m1 ++ keysA m2 := by
  simp [keysA]

theorem lookupA_insert_self {α : Type} (m : List (String × α)) (k : String) (v : α) :
    lookupA (insertA m k v) k = some v := by
  induction m with
  | nil => simp [insertA, lookupA]
  | cons hd tl ih =>
    obtain ⟨k', v'⟩ := hd
    by_cases h : k' = k
    · simp [insertA, h, lookupA]
    · simp [insertA, h, lookupA, ih]

theorem lookupA_insert_ne {α : Type} (m : List (String × α)) (k k' : String) (v : α)
    (h : k' ≠ k) : lookupA (insertA m k v) k' = lookupA m k' := by
  have hk : ¬ k = k' := fun hc => h hc.symm
  induction m with
  | nil => simp [insertA, lookupA, hk]
  | cons hd tl ih =>
    obtain ⟨k1, v1⟩ := hd
    by_cases h1 : k1 = k
    · subst h1
      simp [insertA, lookupA, hk]
    · rw [insertA, if_neg h1, lookupA, lookupA]
      by_cases h2 : k1 = k'
      · simp [h2]
      · simp [h2, ih]

theorem lookupA_none_iff {α : Type} (m : List (String × α)) (k : String) :
    lookupA m k = none ↔ k ∉ keysA m := by
  induction m with
  | nil => simp [lookupA]
  | cons hd tl ih =>
    obtain ⟨k', v⟩ := hd
    by_cases h : k' = k
    · subst h
      simp [lookupA]
    · rw [lookupA, if_neg h, keysA_cons]
      simp only [List.mem_cons, not_or, ih]
      constructor
      · intro hh
        exact ⟨fun hc => h hc.symm, hh⟩
      · intro hh
        exact hh.2

theorem lookupA_isSome_of_mem_keys {α : Type} (m : List (String × α)) (k : String)
    (h : k ∈ keysA m) : ∃ v, lookupA m k = some v := by
  rcases hh : lookupA m k with _ | v
  · exact absurd ((lookupA_none_iff m k).mp hh) (by simpa using h)
  · exact ⟨v, rfl⟩

theorem mem_keysA_of_lookupA {α : Type} (m : List (String × α)) (k : String) (v : α)
    (h : lookupA m k = some v) : k ∈ keysA m := by
  by_contra hk
  rw [← lookupA_none_iff] at hk
  rw [h] at hk
  cases hk

theorem insertA_of_not_mem {α : Type} (m : List (String × α)) (k : String) (v : α)
    (h : k ∉ keysA m) : insertA m k v = m ++ [(k, v)] := by
  induction m with
  | nil => simp [insertA]
  | cons hd tl ih =>
    obtain ⟨k', v'⟩ := hd
    rw [keysA_cons] at h
    simp only [List.mem_cons, not_or] at h
    have hne : ¬ k' = k := fun hc => h.1 hc.symm
    rw [insertA, if_neg hne, ih h.2]
    simp

theorem keysA_insert_of_mem {α : Type} (m : List (String × α)) (k : String) (v : α)
    (h : k ∈ keysA m) : keysA (insertA m k v) = keysA m := by
  induction m with
  | nil => simp at h
  | cons hd tl ih =>
    obtain ⟨k', v'⟩ := hd
    by_cases h1 : k' = k
    · subst h1
      simp [insertA]
    · rw [keysA_cons] at h
      rcases List.mem_cons.mp h with h | h
      · exact absurd h.symm h1
      · rw [insertA, if_neg h1, keysA_cons, keysA_cons, ih h]

theorem mem_keysA_insert {α : Type} (m : List (String × α)) (k : String) (v : α) :
    k ∈ keysA (insertA m k v) := by
  by_cases h : k ∈ keysA m
  · rw [keysA_insert_of_mem m k v h]; exact h
  · rw [insertA_of_not_mem m k v h, keysA_append]; simp

theorem keysA_insert_subset {α : Type} (m : List (String × α)) (k k' : String) (v : α)
    (h : k' ∈ keysA m) : k' ∈ keysA (insertA m k v) := by
  by_cases h1 : k ∈ keysA m
  · rwa [keysA_insert_of_mem m k v h1]
  · rw [insertA_of_not_mem m k v h1, keysA_append]; exact List.mem_append_left _ h

theorem mem_insertA {α : Type} (m : List (String × α)) (k : String) (v : α)
    (x : String × α) (h : x ∈ insertA m k v) : x ∈ m ∨ x = (k, v) := by
  induction m with
  | nil =>
    rw [insertA] at h
    right
    exact List.mem_singleton.mp h
  | cons hd tl ih =>
    obtain ⟨k', v'⟩ := hd
    by_cases h1 : k' = k
    · rw [insertA, if_pos h1] at h
      rcases List.mem_cons.mp h with h | h
      · right; exact h
      · left; exact List.mem_cons_of_mem _ h
    · rw [insertA, if_neg h1] at h
      rcases List.mem_cons.mp h with h | h
      · left; exact h ▸ List.mem_cons_self _ _
      · rcases ih h with h2 | h2
        · left; exact List.mem_cons_of_mem _ h2
        · right; exact h2

theorem nodup_keysA_insert {α : Type} (m : List (String × α)) (k : String) (v : α)
    (h : (keysA m).Nodup) : (keysA (insertA m k v)).Nodup := by
  by_cases h1 : k ∈ keysA m
  · rwa [keysA_insert_of_mem m k v h1]
  · rw [insertA_of_not_mem m k v h1, keysA_append]
    simpa [List.nodup_append] using ⟨h, h1⟩

theorem lookupA_append {α : Type} (m1 m2 : List (String × α)) (k : String) :
    lookupA (m1 ++ m2) k = orO (lookupA m1 k) (lookupA m2 k) := by
  induction m1 with
  | nil => simp [lookupA, orO]
  | cons hd tl ih =>
    obtain ⟨k', v⟩ := hd
    by_cases h : k' = k
    · simp [lookupA, h, orO]
    · simp [lookupA, h, ih]

theorem lookupA_foldIns {α : Type} (kv : List (String × α)) :
    ∀ (m : List (String × α)) (k : String),
      lookupA (foldIns m kv) k = orO (lookupA kv.reverse k) (lookupA m k) := by
  induction kv with
  | nil => intro m k; simp [foldIns, lookupA, orO]
  | cons hd tl ih =>
    obtain ⟨k1, v1⟩ := hd
    intro m k
    rw [foldIns, ih]
    rw [List.reverse_cons, lookupA_append]
    by_cases h : k1 = k
    · subst h
      rcases hh : lookupA tl.reverse k1 with _ | w
      · simp [orO, lookupA, lookupA_insert_self]
      · simp [orO, hh]
    · rcases hh : lookupA tl.reverse k with _ | w
      · simp [orO, hh, lookupA, h, lookupA_insert_ne m k1 k v1 (fun hc => h hc.symm)]
      · simp [orO, hh]

theorem mem_keysA_foldIns_left {α : Type} (kv : List (String × α)) :
    ∀ (m : List (String × α)) (k : String), k ∈ keysA m → k ∈ keysA (foldIns m kv) := by
  induction kv with
  | nil => intro m k h; simpa [foldIns] using h
  | cons hd tl ih =>
    obtain ⟨k1, v1⟩ := hd
    intro m k h
    rw [foldIns]
    exact ih _ _ (keysA_insert_subset m k1 k v1 h)

theorem mem_keysA_foldIns_right {α : Type} (kv : List (String × α)) :
    ∀ (m : List (String × α)) (k : String), k ∈ keysA kv → k ∈ keysA (foldIns m kv) := by
  induction kv with
  | nil => intro m k h; simp at h
  | cons hd tl ih =>
    obtain ⟨k1, v1⟩ := hd
    intro m k h
    rw [keysA_cons] at h
    rcases List.mem_cons.mp h with h | h
    · subst h
      rw [foldIns]
      exact mem_keysA_foldIns_left tl _ _ (mem_keysA_insert m k v1)
    · rw [foldIns]
      exact ih _ _ h

theorem keysA_foldIns_of_subset {α : Type} (kv : List (String × α)) :
    ∀ (m : List (String × α)), (∀ k ∈ keysA kv, k ∈ keysA m) →
      keysA (foldIns m kv) = keysA m := by
  induction kv with
  | nil => intro m _; simp [foldIns]
  | cons hd tl ih =>
    obtain ⟨k1, v1⟩ := hd
    intro m h
    rw [foldIns]
    have h1 : k1 ∈ keysA m := h k1 (by rw [keysA_cons]; exact List.mem_cons_self _ _)
    have h2 : ∀ k ∈ keysA tl, k ∈ keysA (insertA m k1 v1) := by
      intro k hk
      exact keysA_insert_subset m k1 k v1
        (h k (by rw [keysA_cons]; exact List.mem_cons_of_mem _ hk))
    rw [ih _ h2]
    exact keysA_insert_of_mem m k1 v1 h1

theorem nodup_keysA_foldIns {α : Type} (kv : List (String × α)) :
    ∀ (m : List (String × α)), (keysA m).Nodup → (keysA (foldIns m kv)).Nodup := by
  induction kv with
  | nil => intro m h; simpa [foldIns] using h
  | cons hd tl ih =>
    obtain ⟨k1, v1⟩ := hd
    intro m h
    rw [foldIns]
    exact ih _ (nodup_keysA_insert m k1 v1 h)

theorem assoc_ext {α : Type} :
    ∀ (m1 m2 : List (String × α)), (keysA m1).Nodup → (keysA m2).Nodup →
      keysA m1 = keysA m2 → (∀ k, lookupA m1 k = lookupA m2 k) → m1 = m2 := by
  intro m1
  induction m1 with
  | nil =>
    intro m2 _ _ hk _
    cases m2 with
    | nil => rfl
    | cons hd tl => rw [keysA_nil, keysA] at hk; simp at hk
  | cons hd tl ih =>
    obtain ⟨k, v⟩ := hd
    intro m2 hn1 hn2 hk hl
    cases m2 with
    | nil => rw [keysA_cons, keysA_nil] at hk; simp at hk
    | cons hd2 tl2 =>
      obtain ⟨k2, v2⟩ := hd2
      rw [keysA_cons, keysA_cons] at hk
      obtain ⟨hkk, hktl⟩ := List.cons.injEq .. ▸ hk
      subst hkk
      have hv : v = v2 := by
        have := hl k
        simpa [lookupA] using this
      subst hv
      rw [keysA_cons, List.nodup_cons] at hn1 hn2
      have htl : tl = tl2 := by
        apply ih tl2 hn1.2 hn2.2 hktl
        intro k'
        by_cases h : k' = k
        · subst h
          rw [(lookupA_none_iff tl k').mpr hn1.1, (lookupA_none_iff tl2 k').mpr hn2.1]
        · have hne : ¬ k = k' := fun hc => h hc.symm
          have := hl k'
          rw [lookupA, if_neg hne, lookupA, if_neg hne] at this
          exact this
      rw [htl]

theorem foldIns_foldIns_self {α : Type} (m kv : List (String × α))
    (h : (keysA m).Nodup) : foldIns (foldIns m kv) kv = foldIns m kv := by
  have hn1 : (keysA (foldIns m kv)).Nodup := nodup_keysA_foldIns kv m h
  apply assoc_ext _ _ (nodup_keysA_foldIns kv _ hn1) hn1
  · exact keysA_foldIns_of_subset kv _ (fun k hk => mem_keysA_foldIns_right kv m k hk)
  · intro k
    rw [lookupA_foldIns, lookupA_foldIns]
    rcases hh : lookupA kv.reverse k with _ | w
    · simp [orO]
    · simp [orO, hh]

theorem foldIns_append_of_disjoint {α : Type} (kv : List (String × α)) :
    ∀ (m : List (String × α)), (∀ k ∈ keysA kv, k ∉ keysA m) → (keysA kv).Nodup →
      foldIns m kv = m ++ kv := by
  induction kv with
  | nil => intro m _ _; simp [foldIns]
  | cons hd tl ih =>
    obtain ⟨k1, v1⟩ := hd
    intro m hdisj hnd
    rw [keysA_cons, List.nodup_cons] at hnd
    rw [foldIns, insertA_of_not_mem m k1 v1 (hdisj k1 (by simp))]
    rw [ih (m ++ [(k1, v1)])]
    · simp
    · intro k hk
      rw [keysA_append]
      simp only [List.mem_append]
      push_neg
      refine ⟨hdisj k (by rw [keysA_cons]; exact List.mem_cons_of_mem _ hk), ?_⟩
      simp only [keysA_cons, keysA_nil, List.mem_singleton]
      intro hc
      subst hc
      exact absurd hk hnd.1
    · exact hnd.2

theorem lookupA_of_mem_nodup {α : Type} (m : List (String × α)) (k : String) (v : α)
    (hnd : (keysA m).Nodup) (h : (k, v) ∈ m) : lookupA m k = some v := by
  induction m with
  | nil => cases h
  | cons hd tl ih =>
    obtain ⟨k', v'⟩ := hd
    rw [keysA_cons, List.nodup_cons] at hnd
    rcases List.mem_cons.mp h with h | h
    · obtain ⟨h1, h2⟩ := Prod.mk.injEq .. ▸ h
      subst h1
      subst h2
      simp [lookupA]
    · have hk : ¬ k' = k := by
        intro hc
        subst hc
        exact hnd.1 (by simpa [keysA] using List.mem_map_of_mem Prod.fst h)
      rw [lookupA, if_neg hk]
      exact ih hnd.2 h

theorem mem_eraseA {α : Type} (m : List (String × α)) (k : String)
    (x : String × α) (h : x ∈ eraseA m k) : x ∈ m := by
  induction m with
  | nil => rw [eraseA] at h; cases h
  | cons hd tl ih =>
    obtain ⟨k', v⟩ := hd
    by_cases h1 : k' = k
    · rw [eraseA, if_pos h1] at h
      exact List.mem_cons_of_mem _ h
    · rw [eraseA, if_neg h1] at h
      rcases List.mem_cons.mp h with h | h
      · exact h ▸ List.mem_cons_self _ _
      · exact List.mem_cons_of_mem _ (ih h)

theorem lookupA_eraseA_self {α : Type} (m : List (String × α)) (k : String)
    (hnd : (keysA m).Nodup) : lookupA (eraseA m k) k = none := by
  induction m with
  | nil => simp [eraseA, lookupA]
  | cons hd tl ih =>
    obtain ⟨k', v⟩ := hd
    rw [keysA_cons, List.nodup_cons] at hnd
    by_cases h1 : k' = k
    · subst h1
      rw [eraseA, if_pos rfl, (lookupA_none_iff tl k').mpr hnd.1]
    · rw [eraseA, if_neg h1, lookupA, if_neg h1, ih hnd.2]

theorem lookupA_eraseA_ne {α : Type} (m : List (String × α)) (k k' : String)
    (h : k' ≠ k) : lookupA (eraseA m k) k' = lookupA m k' := by
  induction m with
  | nil => simp [eraseA]
  | cons hd tl ih =>
    obtain ⟨k1, v⟩ := hd
    by_cases h1 : k1 = k
    · subst h1
      rw [eraseA, if_pos rfl, lookupA, if_neg (fun hc : k1 = k' => h hc.symm)]
    · rw [eraseA, if_neg h1, lookupA, lookupA]
      by_cases h2 : k1 = k'
      · simp [h2]
      · simp [h2, ih]

/-! ## The filesystem as seen by the scanner

`os.scandir` of a directory yields entries, each a file or a subdirectory
(other kinds are ignored by the Python code, which checks `is_dir()` /
`is_file()`). A directory's contents are a `List Entry` in scan order. -/

inductive Entry where
  | file (name : String)
  | dir (name : String) (sub : List Entry)

/-- The raw on-disk name of an entry. -/
def entryName : Entry → String
  | .file n => n
  | .dir n _ => n

/-! ## The filesystem as seen by the mutation operations

For `remove` and `mkdir` the filesystem collaborator is a set of directory
paths and a set of file paths (the spec's create-directory / delete-directory
/ delete-file primitives). -/

structure FSState where
  dirs : List String
  fls : List String

/-- `q` lies in the subtree rooted at `p` (is `p` itself or below it). -/
def pathUnder (p q : String) : Bool :=
  q == p || (p ++ "/").data.isPrefixOf q.data

/-- `shutil.rmtree p`: delete the whole subtree rooted at `p`. -/
def rmtree (fs : FSState) (p : String) : FSState :=
  ⟨fs.dirs.filter (fun q => !(pathUnder p q)), fs.fls.filter (fun q => !(pathUnder p q))⟩

/-- `os.remove p`: delete the single file `p`. -/
def removeFileFS (fs : FSState) (p : String) : FSState :=
  ⟨fs.dirs, fs.fls.filter (fun q => !(q == p))⟩

/-- The chain of directories `os.makedirs (join base segs)` guarantees:
`base` itself and every join prefix. -/
def mchain (base : String) : List String → List String
  | [] => [base]
  | s :: rest => base :: mchain (pjoin base s) rest

/-- `os.makedirs (join base segs) (exist_ok := True)`: add every missing
directory of the chain; existing ones are untouched (idempotent). -/
def makedirsFS (fs : FSState) (base : String) (segs : List String) : FSState :=
  ⟨fs.dirs ++ (mchain base segs).filter (fun p => !(fs.dirs.contains p)), fs.fls⟩

/-! ## The Folder data model (class Folder, pathmanager.py lines 7-43) -/

inductive Folder where
  | mk (name : String) (parent_path : String)
       (subfolders : List (String × Folder)) (files : List (String × String))

def Folder.name : Folder → String
  | .mk n _ _ _ => n

def Folder.parent_path : Folder → String
  | .mk _ pp _ _ => pp

def Folder.subfolders : Folder → List (String × Folder)
  | .mk _ _ s _ => s

def Folder.files : Folder → List (String × String)
  | .mk _ _ _ fl => fl

@[simp] theorem Folder.name_mk (n pp : String) (s : List (String × Folder))
    (fl : List (String × String)) : (Folder.mk n pp s fl).name = n := rfl

@[simp] theorem Folder.parent_path_mk (n pp : String) (s : List (String × Folder))
    (fl : List (String × String)) : (Folder.mk n pp s fl).parent_path = pp := rfl

@[simp] theorem Folder.subfolders_mk (n pp : String) (s : List (String × Folder))
    (fl : List (String × String)) : (Folder.mk n pp s fl).subfolders = s := rfl

@[simp] theorem Folder.files_mk (n pp : String) (s : List (String × Folder))
    (fl : List (String × String)) : (Folder.mk n pp s fl).files = fl := rfl

theorem Folder.eta (f : Folder) :
    Folder.mk f.name f.parent_path f.subfolders f.files = f := by
  cases f
  rfl

/-- `Folder.dir` (lines 82-97): `os.path.join(self.parent_path, self.name)`. -/
def Folder.dir (f : Folder) : String := pjoin f.parent_path f.name

/-- The result of attribute-style lookup: a child folder or a file path. -/
inductive LookupVal where
  | subfolder (f : Folder)
  | filepath (p : String)

/-- `Folder.__getattr__` (lines 44-80): try `item` with underscores replaced
by spaces as a subfolders key, then `item` itself as a subfolders key, then
`item` as a files key; otherwise raise AttributeError with a message naming
`item` and `self.name`. -/
def Folder.getattr (f : Folder) (item : String) : Except String LookupVal :=
  let folder_name := underToSpace item
  match lookupA f.subfolders folder_name with
  | some c => .ok (.subfolder c)
  | none =>
    match lookupA f.subfolders item with
    | some c => .ok (.subfolder c)
    | none =>
      match lookupA f.files item with
      | some p => .ok (.filepath p)
      | none => .error ("'" ++ item ++ "' not found in folder '" ++ f.name ++ "'")

/-- `Folder.remove` (lines 132-165). Returns the updated folder, the updated
filesystem, and the printed report. -/
def Folder.remove (f : Folder) (fs : FSState) (name : String) :
    Folder × FSState × String :=
  let clean_name_with_spaces := underToSpace name
  let clean_name_with_underscores := sanitizeDir name
  match lookupA f.subfolders clean_name_with_underscores with
  | some sub =>
    let full_path := pjoin f.dir sub.name
    (Folder.mk f.name f.parent_path (eraseA f.subfolders clean_name_with_underscores) f.files,
     rmtree fs full_path,
     "Subfolder '" ++ clean_name_with_spaces ++ "' has been removed from '" ++ f.dir ++ "'")
  | none =>
    match lookupA f.files clean_name_with_underscores with
    | some full_path =>
      (Folder.mk f.name f.parent_path f.subfolders (eraseA f.files clean_name_with_underscores),
       removeFileFS fs full_path,
       "File '" ++ clean_name_with_spaces ++ "' has been removed from '" ++ f.dir ++ "'")
    | none =>
      (f, fs, "'" ++ clean_name_with_spaces ++ "' not found in '" ++ f.dir ++ "'")

/-- The in-memory walk of `Folder.mkdir` (lines 189-195): for each path part,
create (with `parent_path` set to the current folder's `dir()`) or reuse the
child stored under the part's sanitized key, then descend into it. -/
def Folder.mkdirParts : Folder → List String → Folder
  | f, [] => f
  | f, part :: rest =>
    let clean_part := sanitizeDir part
    match lookupA f.subfolders clean_part with
    | some child =>
      Folder.mk f.name f.parent_path
        (insertA f.subfolders clean_part (Folder.mkdirParts child rest)) f.files
    | none =>
      Folder.mk f.name f.parent_path
        (insertA f.subfolders clean_part
          (Folder.mkdirParts (Folder.mk part f.dir [] []) rest)) f.files

/-- `Folder.mkdir` (lines 167-195): `os.makedirs(join(self.dir(), *args),
exist_ok=True)`, then walk `os.path.relpath(full_path, self.dir()).split(os.sep)`.
For plain relative segments (nonempty, no separator, not `.` or `..`) that
relpath-and-split is the argument list itself, and for an empty argument list
it is `["."]`; this is the domain on which the claims are stated. -/
def Folder.mkdir (f : Folder) (fs : FSState) (args : List String) :
    Folder × FSState :=
  let fs' := makedirsFS fs f.dir args
  let path_parts := if args.isEmpty then ["."] else args
  (Folder.mkdirParts f path_parts, fs')

/-! ## Recursive load (PathManager, lines 239-312) -/

/-- `PathManager._load_nested_directories` (lines 281-301): for each scandir
entry of `current_path`, either recursively build a fresh child folder and
store it under the space-to-underscore key, or store the file's path under
the dot-and-space-to-underscore key. -/
def loadEntries : String → List Entry → Folder → Folder
  | _, [], f => f
  | p, .file n :: rest, f =>
    loadEntries p rest
      (Folder.mk f.name f.parent_path f.subfolders
        (insertA f.files (sanitizeFile n) (pjoin p n)))
  | p, .dir n sub :: rest, f =>
    loadEntries p rest
      (Folder.mk f.name f.parent_path
        (insertA f.subfolders (sanitizeDir n)
          (loadEntries (pjoin p n) sub (Folder.mk n p [] [])))
        f.files)

/-- `PathManager.__init__` (lines 268-279): the root folder is named
`basename(root_dir)` with parent `dirname(root_dir)`, then the tree is
loaded from `root_dir`. -/
def PathManager.init (root_dir : String) (es : List Entry) : Folder :=
  loadEntries root_dir es
    (Folder.mk (basenameStr root_dir) (dirnameStr root_dir) [] [])

/-- `PathManager.reload` (lines 303-312): re-run the scan from `root` on the
existing root folder. -/
def PathManager.reload (root : String) (es : List Entry) (m : Folder) : Folder :=
  loadEntries root es m

/-! ## Derived observations used by the claims -/

/-- The dict entries that one scan level inserts into `subfolders`, in scan
order: sanitized key paired with the freshly loaded child folder. -/
def kvDirs : String → List Entry → List (String × Folder)
  | _, [] => []
  | p, .file _ :: rest => kvDirs p rest
  | p, .dir n sub :: rest =>
    (sanitizeDir n, loadEntries (pjoin p n) sub (Folder.mk n p [] [])) :: kvDirs p rest

/-- The dict entries that one scan level inserts into `files`, in scan order. -/
def kvFiles : String → List Entry → List (String × String)
  | _, [] => []
  | p, .file n :: rest => (sanitizeFile n, pjoin p n) :: kvFiles p rest
  | p, .dir _ _ :: rest => kvFiles p rest

/-- Sanitized keys of the directories of one scan level, in scan order. -/
def dirKeys (es : List Entry) : List String :=
  es.filterMap fun e =>
    match e with
    | .dir n _ => some (sanitizeDir n)
    | .file _ => none

/-- Sanitized keys of the files of one scan level, in scan order. -/
def fileKeys (es : List Entry) : List String :=
  es.filterMap fun e =>
    match e with
    | .file n => some (sanitizeFile n)
    | .dir _ _ => none

/-- Absolute paths of all directories strictly inside a tree rooted at `p`,
depth-first in scan order. -/
def entryDirs : String → List Entry → List String
  | _, [] => []
  | p, .file _ :: rest => entryDirs p rest
  | p, .dir n sub :: rest =>
    pjoin p n :: (entryDirs (pjoin p n) sub ++ entryDirs p rest)

mutual

/-- `dir()` of a node and, recursively, of every node below it. -/
def Folder.allDirs : Folder → List String
  | .mk n pp subs _ => pjoin pp n :: allDirsSubs subs

def allDirsSubs : List (String × Folder) → List String
  | [] => []
  | (_, c) :: rest => c.allDirs ++ allDirsSubs rest

end

/-- Walk the mirror along raw directory names, looking each one up under its
sanitized key. -/
def followRaw : Folder → List String → Option Folder
  | f, [] => some f
  | f, d :: rest =>
    match lookupA f.subfolders (sanitizeDir d) with
    | some c => followRaw c rest
    | none => none

/-- Walk the mirror with `__getattr__`, as a caller chaining attribute
accesses does. -/
def lookupChainF : Folder → List String → Option Folder
  | f, [] => some f
  | f, s :: rest =>
    match f.getattr s with
    | .ok (.subfolder c) => lookupChainF c rest
    | .ok (.filepath _) => none
    | .error _ => none

/-! ## Invariants and well-formedness predicates -/

/-- The key invariant of the data model (spec section 3): every `subfolders`
key is the space-to-underscore sanitization of the child's raw `name`, and
every `files` key is the dot-and-space-to-underscore sanitization of the raw
name (the basename of the stored absolute path) of the file it refers to. -/
inductive GoodKeys : Folder → Prop where
  | mk (n pp : String) (subs : List (String × Folder)) (fls : List (String × String)) :
      (∀ kc ∈ subs, kc.1 = sanitizeDir (Folder.name kc.2)) →
      (∀ kc ∈ subs, GoodKeys kc.2) →
      (∀ kv ∈ fls, kv.1 = sanitizeFile (basenameStr kv.2)) →
      GoodKeys (.mk n pp subs fls)

/-- Parent linkage: every child's `parent_path` is its parent's `dir()`. -/
inductive Linked : Folder → Prop where
  | mk (n pp : String) (subs : List (String × Folder)) (fls : List (String × String)) :
      (∀ kc ∈ subs, (Folder.parent_path kc.2) = pjoin pp n) →
      (∀ kc ∈ subs, Linked kc.2) →
      Linked (.mk n pp subs fls)

/-- Scan-level entry names are valid filesystem names (no separator). -/
inductive ValidNames : List Entry → Prop where
  | nil : ValidNames []
  | file (n : String) (rest : List Entry) :
      (∀ c ∈ n.data, c ≠ '/') → ValidNames rest → ValidNames (.file n :: rest)
  | dir (n : String) (sub rest : List Entry) :
      (∀ c ∈ n.data, c ≠ '/') → ValidNames sub → ValidNames rest →
      ValidNames (.dir n sub :: rest)

/-- A well-formed directory tree: valid names and, at every level, no two
sibling directories and no two sibling files whose names sanitize to the
same key (the lossy-sanitization collision the spec flags in section 9). -/
inductive GoodFS : List Entry → Prop where
  | mk (es : List Entry) :
      (dirKeys es).Nodup →
      (fileKeys es).Nodup →
      (∀ n sub, Entry.dir n sub ∈ es → GoodFS sub) →
      (∀ e ∈ es, ∀ c ∈ (entryName e).data, c ≠ '/') →
      GoodFS es

/-- A file at position `pos` (a chain of raw directory names) in a tree. -/
inductive FileAt : List Entry → List String → String → Prop where
  | here (es : List Entry) (nm : String) : Entry.file nm ∈ es → FileAt es [] nm
  | there (es : List Entry) (d : String) (sub : List Entry) (pos : List String)
      (nm : String) : Entry.dir d sub ∈ es → FileAt sub pos nm →
      FileAt es (d :: pos) nm

/-- A plain path segment: usable verbatim as one `mkdir` argument and as one
attribute-lookup name (nonempty, no separator, no space, no underscore, not
a relative-path dot form). -/
def plainSeg (s : String) : Prop :=
  s ≠ "" ∧ s ≠ "." ∧ s ≠ ".." ∧ ∀ c ∈ s.data, c ≠ '/' ∧ c ≠ ' ' ∧ c ≠ '_'

/-! ## String and path lemmas -/

theorem list_map_eq_self {α : Type} (g : α → α) :
    ∀ (l : List α), (∀ c ∈ l, g c = c) → l.map g = l := by
  intro l
  induction l with
  | nil => intro _; rfl
  | cons a t ih =>
    intro h
    rw [List.map_cons, h a (List.mem_cons_self _ _),
      ih (fun c hc => h c (List.mem_cons_of_mem _ hc))]

theorem mapStr_eq_self (g : Char → Char) (s : String) (h : ∀ c ∈ s.data, g c = c) :
    mapStr g s = s := by
  have : s.data.map g = s.data := list_map_eq_self g s.data h
  simpa [mapStr] using congrArg String.mk this

theorem underToSpace_eq_self (s : String) (h : ∀ c ∈ s.data, c ≠ '_') :
    underToSpace s = s := by
  apply mapStr_eq_self
  intro c hc
  simp [swapUS]
  intro hc2
  exact absurd hc2 (h c hc)

theorem sanitizeDir_eq_self (s : String) (h : ∀ c ∈ s.data, c ≠ ' ') :
    sanitizeDir s = s := by
  apply mapStr_eq_self
  intro c hc
  simp [swapSU]
  intro hc2
  exact absurd hc2 (h c hc)

theorem sanitizeDir_no_space (s : String) : ∀ c ∈ (sanitizeDir s).data, c ≠ ' ' := by
  intro c hc
  simp only [sanitizeDir, mapStr, List.mem_map] at hc
  obtain ⟨c', _, hc'⟩ := hc
  subst hc'
  by_cases h : c' = ' ' <;> simp [swapSU, h]

theorem map_swapSU_self_of_no_underscore :
    ∀ (l1 l2 : List Char), l1.map swapSU = l2 → (∀ c ∈ l2, c ≠ '_') → l1 = l2 := by
  intro l1
  induction l1 with
  | nil =>
    intro l2 h _
    simpa using h.symm
  | cons a t ih =>
    intro l2 h h2
    cases l2 with
    | nil => simp at h
    | cons b t2 =>
      simp only [List.map_cons, List.cons.injEq] at h
      have hb : a = b := by
        rcases h.1 with hab
        by_cases ha : a = ' '
        · exfalso
          apply h2 b (List.mem_cons_self _ _)
          rw [← hab]
          simp [swapSU, ha]
        · rw [← hab]; simp [swapSU, ha]
      rw [hb, ih t2 h.2 (fun c hc => h2 c (List.mem_cons_of_mem _ hc))]

theorem sanitizeDir_inv (t s : String) (h : sanitizeDir t = s)
    (hs : ∀ c ∈ s.data, c ≠ '_') : t = s := by
  have hd : t.data.map swapSU = s.data := congrArg String.data h
  exact String.ext (map_swapSU_self_of_no_underscore t.data s.data hd hs)

theorem takeWhile_append_all (p : Char → Bool) (l1 l2 : List Char)
    (h : ∀ c ∈ l1, p c = true) :
    List.takeWhile p (l1 ++ l2) = l1 ++ List.takeWhile p l2 := by
  induction l1 with
  | nil => simp
  | cons a t ih =>
    have ha : p a = true := h a (List.mem_cons_self _ _)
    simp [List.takeWhile_cons, ha, ih (fun c hc => h c (List.mem_cons_of_mem _ hc))]

theorem basenameStr_append_slash (pre n : String) (hp : pre.data.reverse.head? = some '/')
    (h : ∀ c ∈ n.data, c ≠ '/') : basenameStr (pre ++ n) = n := by
  rcases hrev : pre.data.reverse with _ | ⟨a, t⟩
  · rw [hrev] at hp; cases hp
  · rw [hrev] at hp
    have ha : a = '/' := by injection hp
    subst ha
    have hall : ∀ c ∈ n.data.reverse, (fun c => decide (c ≠ '/')) c = true := by
      intro c hc
      simp only [decide_eq_true_eq]
      exact h c (List.mem_reverse.mp hc)
    rw [basenameStr, String.data_append, List.reverse_append, hrev]
    rw [takeWhile_append_all _ _ _ hall]
    simp only [List.takeWhile_cons]
    simp

theorem basenameStr_pjoin (p n : String) (h : ∀ c ∈ n.data, c ≠ '/') :
    basenameStr (pjoin p n) = n := by
  rw [pjoin]
  by_cases h1 : p = ""
  · rw [if_pos h1, basenameStr]
    have hall : ∀ c ∈ n.data.reverse, (fun c => decide (c ≠ '/')) c = true := by
      intro c hc
      simp only [decide_eq_true_eq]
      exact h c (List.mem_reverse.mp hc)
    rw [List.takeWhile_eq_self_iff.mpr hall]
    exact String.ext (by simp)
  · rw [if_neg h1]
    by_cases h2 : p.data.getLast? = some '/'
    · rw [if_pos h2]
      apply basenameStr_append_slash p n _ h
      rw [List.head?_reverse]
      exact h2
    · rw [if_neg h2]
      apply basenameStr_append_slash (p ++ "/") n _ h
      rw [String.data_append]
      simp

/-! ## Structure of one scan level -/

@[simp] theorem Folder.dir_mk (n pp : String) (s : List (String × Folder))
    (fl : List (String × String)) : (Folder.mk n pp s fl).dir = pjoin pp n := rfl

theorem loadEntries_decomp :
    ∀ (es : List Entry) (p : String) (f : Folder),
      loadEntries p es f =
        Folder.mk f.name f.parent_path (foldIns f.subfolders (kvDirs p es))
          (foldIns f.files (kvFiles p es)) := by
  intro es
  induction es with
  | nil =>
    intro p f
    rw [loadEntries, kvDirs, kvFiles, foldIns, foldIns, Folder.eta]
  | cons e rest ih =>
    intro p f
    cases e with
    | file n =>
      rw [loadEntries, ih, kvDirs, kvFiles, foldIns]
      simp
    | dir n sub =>
      rw [loadEntries, ih, kvDirs, kvFiles, foldIns]
      simp

theorem keysA_kvDirs : ∀ (p : String) (es : List Entry),
    keysA (kvDirs p es) = dirKeys es := by
  intro p es
  induction es with
  | nil => rw [kvDirs, dirKeys]; simp
  | cons e rest ih =>
    cases e with
    | file n => rw [kvDirs, dirKeys]; simpa [dirKeys, List.filterMap_cons] using ih
    | dir n sub => rw [kvDirs, dirKeys]; simpa [dirKeys, List.filterMap_cons] using ih

theorem keysA_kvFiles : ∀ (p : String) (es : List Entry),
    keysA (kvFiles p es) = fileKeys es := by
  intro p es
  induction es with
  | nil => rw [kvFiles, fileKeys]; simp
  | cons e rest ih =>
    cases e with
    | file n => rw [kvFiles, fileKeys]; simpa [fileKeys, List.filterMap_cons] using ih
    | dir n sub => rw [kvFiles, fileKeys]; simpa [fileKeys, List.filterMap_cons] using ih

theorem mem_kvDirs (p : String) (d : String) (sub : List Entry) :
    ∀ (es : List Entry), Entry.dir d sub ∈ es →
      (sanitizeDir d, loadEntries (pjoin p d) sub (Folder.mk d p [] [])) ∈ kvDirs p es := by
  intro es
  induction es with
  | nil => intro h; cases h
  | cons e rest ih =>
    intro h
    rcases List.mem_cons.mp h with heq | hmem
    · rw [← heq, kvDirs]
      exact List.mem_cons_self _ _
    · cases e with
      | file n => rw [kvDirs]; exact ih hmem
      | dir n s2 => rw [kvDirs]; exact List.mem_cons_of_mem _ (ih hmem)

theorem mem_kvFiles (p : String) (nm : String) :
    ∀ (es : List Entry), Entry.file nm ∈ es →
      (sanitizeFile nm, pjoin p nm) ∈ kvFiles p es := by
  intro es
  induction es with
  | nil => intro h; cases h
  | cons e rest ih =>
    intro h
    rcases List.mem_cons.mp h with heq | hmem
    · rw [← heq, kvFiles]
      exact List.mem_cons_self _ _
    · cases e with
      | file n => rw [kvFiles]; exact List.mem_cons_of_mem _ (ih hmem)
      | dir n s2 => rw [kvFiles]; exact ih hmem

/-! ## GoodFS accessors -/

theorem goodFS_dir_nodup {es : List Entry} (h : GoodFS es) : (dirKeys es).Nodup := by
  cases h with
  | mk es h1 h2 h3 h4 => exact h1

theorem goodFS_file_nodup {es : List Entry} (h : GoodFS es) : (fileKeys es).Nodup := by
  cases h with
  | mk es h1 h2 h3 h4 => exact h2

theorem goodFS_sub {es : List Entry} (h : GoodFS es) {n : String} {sub : List Entry}
    (hm : Entry.dir n sub ∈ es) : GoodFS sub := by
  cases h with
  | mk es h1 h2 h3 h4 => exact h3 n sub hm

theorem goodFS_names {es : List Entry} (h : GoodFS es) :
    ∀ e ∈ es, ∀ c ∈ (entryName e).data, c ≠ '/' := by
  cases h with
  | mk es h1 h2 h3 h4 => exact h4

theorem goodFS_tail {e : Entry} {rest : List Entry} (h : GoodFS (e :: rest)) :
    GoodFS rest := by
  cases h with
  | mk es h1 h2 h3 h4 =>
    refine GoodFS.mk rest ?_ ?_ ?_ ?_
    · cases e with
      | file n => simpa [dirKeys, List.filterMap_cons] using h1
      | dir n sub =>
        have : dirKeys (Entry.dir n sub :: rest) = sanitizeDir n :: dirKeys rest := by
          simp [dirKeys, List.filterMap_cons]
        rw [this] at h1
        exact h1.of_cons
    · cases e with
      | file n =>
        have : fileKeys (Entry.file n :: rest) = sanitizeFile n :: fileKeys rest := by
          simp [fileKeys, List.filterMap_cons]
        rw [this] at h2
        exact h2.of_cons
      | dir n sub => simpa [fileKeys, List.filterMap_cons] using h2
    · intro n sub hm
      exact h3 n sub (List.mem_cons_of_mem _ hm)
    · intro e2 he2
      exact h4 e2 (List.mem_cons_of_mem _ he2)

/-! ## Folder accessors of inductive invariants -/

theorem goodKeys_sub_key {f : Folder} (h : GoodKeys f) :
    ∀ kc ∈ f.subfolders, kc.1 = sanitizeDir (Folder.name kc.2) := by
  cases h with
  | mk n pp subs fls h1 h2 h3 => exact h1

theorem goodKeys_sub_rec {f : Folder} (h : GoodKeys f) :
    ∀ kc ∈ f.subfolders, GoodKeys kc.2 := by
  cases h with
  | mk n pp subs fls h1 h2 h3 => exact h2

theorem goodKeys_file_key {f : Folder} (h : GoodKeys f) :
    ∀ kv ∈ f.files, kv.1 = sanitizeFile (basenameStr kv.2) := by
  cases h with
  | mk n pp subs fls h1 h2 h3 => exact h3

theorem goodKeys_intro (f : Folder)
    (h1 : ∀ kc ∈ f.subfolders, kc.1 = sanitizeDir (Folder.name kc.2))
    (h2 : ∀ kc ∈ f.subfolders, GoodKeys kc.2)
    (h3 : ∀ kv ∈ f.files, kv.1 = sanitizeFile (basenameStr kv.2)) : GoodKeys f := by
  have := GoodKeys.mk f.name f.parent_path f.subfolders f.files h1 h2 h3
  rwa [Folder.eta] at this

theorem linked_sub_pp {f : Folder} (h : Linked f) :
    ∀ kc ∈ f.subfolders, (Folder.parent_path kc.2) = f.dir := by
  cases h with
  | mk n pp subs fls h1 h2 =>
    intro kc hm
    rw [Folder.dir_mk]
    exact h1 kc hm

theorem linked_sub_rec {f : Folder} (h : Linked f) :
    ∀ kc ∈ f.subfolders, Linked kc.2 := by
  cases h with
  | mk n pp subs fls h1 h2 => exact h2

theorem linked_intro (f : Folder)
    (h1 : ∀ kc ∈ f.subfolders, (Folder.parent_path kc.2) = f.dir)
    (h2 : ∀ kc ∈ f.subfolders, Linked kc.2) : Linked f := by
  have := Linked.mk f.name f.parent_path f.subfolders f.files
    (by simpa [Folder.dir] using h1) h2
  rwa [Folder.eta] at this

/-! ## mkdirParts structural lemmas -/

theorem mkdirParts_fix : ∀ (segs : List String) (f : Folder),
    (Folder.mkdirParts f segs).name = f.name ∧
    (Folder.mkdirParts f segs).parent_path = f.parent_path ∧
    (Folder.mkdirParts f segs).files = f.files := by
  intro segs
  cases segs with
  | nil => intro f; rw [Folder.mkdirParts]; exact ⟨rfl, rfl, rfl⟩
  | cons part rest =>
    intro f
    rw [Folder.mkdirParts]
    rcases lookupA f.subfolders (sanitizeDir part) with _ | child
    · exact ⟨rfl, rfl, rfl⟩
    · exact ⟨rfl, rfl, rfl⟩

theorem mkdirParts_dir (segs : List String) (f : Folder) :
    (Folder.mkdirParts f segs).dir = f.dir := by
  rw [Folder.dir, Folder.dir, (mkdirParts_fix segs f).1, (mkdirParts_fix segs f).2.1]

/-! ## Claim C1: attribute-style lookup resolution -/

/-- C1: for every folder node and looked-up name `item`, `__getattr__`
resolves by exactly this ordered policy: `item` with underscores replaced by
spaces as a `subfolders` key, else `item` unmodified as a `subfolders` key,
else `item` as a `files` key (returning the stored path), else a NotFound
error; there is no default result.  The embedding `Folder.getattr` is a pure
function, so the lookup has no side effects on the node. -/
theorem c1_lookup_policy (f : Folder) (item : String) :
    (∀ c, lookupA f.subfolders (underToSpace item) = some c →
      f.getattr item = .ok (.subfolder c)) ∧
    (lookupA f.subfolders (underToSpace item) = none →
      ∀ c, lookupA f.subfolders item = some c →
        f.getattr item = .ok (.subfolder c)) ∧
    (lookupA f.subfolders (underToSpace item) = none →
      lookupA f.subfolders item = none →
      ∀ q, lookupA f.files item = some q → f.getattr item = .ok (.filepath q)) ∧
    (lookupA f.subfolders (underToSpace item) = none →
      lookupA f.subfolders item = none → lookupA f.files item = none →
      f.getattr item =
        .error ("'" ++ item ++ "' not found in folder '" ++ f.name ++ "'")) := by
  refine ⟨?_, ?_, ?_, ?_⟩
  · intro c h1
    simp [Folder.getattr, h1]
  · intro h1 c h2
    simp [Folder.getattr, h1, h2]
  · intro h1 h2 q h3
    simp [Folder.getattr, h1, h2, h3]
  · intro h1 h2 h3
    simp [Folder.getattr, h1, h2, h3]

/-- Concrete folder used by the C1 witness: a subfolder stored under its raw
space-containing name's sanitized key and one file. -/
def folderW1 : Folder :=
  Folder.mk "r" "/tmp" [("my dir", Folder.mk "my dir" "/tmp/r" [] [])]
    [("a_txt", "/tmp/r/a.txt")]

theorem c1_lookup_policy_witness :
    lookupA folderW1.subfolders (underToSpace "my_dir") =
      some (Folder.mk "my dir" "/tmp/r" [] []) ∧
    folderW1.getattr "my_dir" = .ok (.subfolder (Folder.mk "my dir" "/tmp/r" [] [])) := by
  have h : lookupA folderW1.subfolders (underToSpace "my_dir") =
      some (Folder.mk "my dir" "/tmp/r" [] []) := by
    simp [folderW1, underToSpace, mapStr, swapUS, lookupA]
  exact ⟨h, (c1_lookup_policy folderW1 "my_dir").1 _ h⟩

/-! ## Claim C8: remove on an absent name -/

/-- C8: when the target (spaces replaced by underscores) is a key of neither
`subfolders` nor `files`, `remove` returns the folder and filesystem exactly
unchanged and reports a not-found message (a reported outcome, not silence
and not a fault). -/
theorem c8_remove_absent (f : Folder) (fs : FSState) (target : String)
    (h1 : lookupA f.subfolders (sanitizeDir target) = none)
    (h2 : lookupA f.files (sanitizeDir target) = none) :
    Folder.remove f fs target =
      (f, fs, "'" ++ underToSpace target ++ "' not found in '" ++ f.dir ++ "'") := by
  simp [Folder.remove, h1, h2]

theorem c8_remove_absent_witness :
    Folder.remove folderW1 ⟨["/tmp/r"], ["/tmp/r/a.txt"]⟩ "ghost" =
      (folderW1, ⟨["/tmp/r"], ["/tmp/r/a.txt"]⟩,
        "'ghost' not found in '/tmp/r'") := by
  have h := c8_remove_absent folderW1 ⟨["/tmp/r"], ["/tmp/r/a.txt"]⟩ "ghost"
    (by simp [folderW1, sanitizeDir, mapStr, swapSU, lookupA])
    (by simp [folderW1, sanitizeDir, mapStr, swapSU, lookupA])
  rw [h]
  have h2 : underToSpace "ghost" = "ghost" := by decide
  have h3 : folderW1.dir = "/tmp/r" := by decide
  rw [h2, h3]
  rfl

/-! ## Claim C9: content of the NotFound lookup error -/

/-- C9 counterexample: the AttributeError message names `self.name`, not the
folder's full `dir()` path.  On a node named `root` with parent
`/home/user`, looking up `x` yields a message in which the full path
`/home/user/root` does not occur at all. -/
theorem c9_counterexample :
    Folder.getattr (Folder.mk "root" "/home/user" [] []) "x" =
      .error "'x' not found in folder 'root'" ∧
    (Folder.mk "root" "/home/user" [] []).dir = "/home/user/root" ∧
    ¬ ("/home/user/root".data <:+: "'x' not found in folder 'root'".data) := by
  refine ⟨by simp [Folder.getattr, lookupA], by decide, by decide⟩

/-- C9 amended: when the name is absent from `subfolders` (in both key forms)
and from `files`, lookup fails with an error whose message names `item` and
the folder's `name` attribute (not its full `dir()` path). -/
theorem c9_notfound_message (f : Folder) (item : String)
    (h1 : lookupA f.subfolders (underToSpace item) = none)
    (h2 : lookupA f.subfolders item = none)
    (h3 : lookupA f.files item = none) :
    f.getattr item =
      .error ("'" ++ item ++ "' not found in folder '" ++ f.name ++ "'") := by
  simp [Folder.getattr, h1, h2, h3]

theorem c9_notfound_message_witness :
    Folder.getattr (Folder.mk "data" "/srv" [] []) "missing" =
      .error "'missing' not found in folder 'data'" := by
  have h := c9_notfound_message (Folder.mk "data" "/srv" [] []) "missing"
    (by simp [underToSpace, mapStr, swapUS, lookupA]) (by simp [lookupA])
    (by simp [lookupA])
  simpa using h

/-! ## Claim C10: mkdir with zero segments -/

/-- C10: with no path segments, `mkdir` creates no new directory when the
node's own directory already exists (makedirs is idempotent), but the
relpath of the target against the node's directory is `.`, so a spurious
subfolder entry keyed `"."` appears, holding a node named `"."` whose
`parent_path` is the node's `dir()`. -/
theorem c10_mkdir_noargs (f : Folder) (fs : FSState)
    (h : lookupA f.subfolders "." = none) (hd : f.dir ∈ fs.dirs) :
    (Folder.mkdir f fs []).1.subfolders =
      f.subfolders ++ [(".", Folder.mk "." f.dir [] [])] ∧
    lookupA (Folder.mkdir f fs []).1.subfolders "." =
      some (Folder.mk "." f.dir [] []) ∧
    (Folder.mkdir f fs []).2 = fs := by
  have hdot : sanitizeDir "." = "." := by decide
  have hsub : (Folder.mkdir f fs []).1.subfolders =
      f.subfolders ++ [(".", Folder.mk "." f.dir [] [])] := by
    simp only [Folder.mkdir, List.isEmpty_nil, if_pos]
    rw [Folder.mkdirParts, hdot, h]
    rw [Folder.mkdirParts]
    rw [Folder.subfolders_mk,
      insertA_of_not_mem _ _ _ (by rw [← lookupA_none_iff]; exact h)]
  refine ⟨hsub, ?_, ?_⟩
  · rw [hsub, lookupA_append, (lookupA_none_iff _ _).mpr]
    · simp [lookupA, orO]
    · rw [← lookupA_none_iff]; exact h
  · simp only [Folder.mkdir, makedirsFS, mchain]
    have hc : fs.dirs.contains f.dir = true := List.elem_eq_true_of_mem hd
    rw [List.filter_cons, List.filter_nil]
    have hcond : (!fs.dirs.contains f.dir) = false := by rw [hc]; rfl
    rw [hcond]
    simp

/-- Concrete folder used by the C10 witness. -/
def folderW10 : Folder := Folder.mk "w" "/var" [("k", Folder.mk "k" "/var/w" [] [])] []

theorem c10_mkdir_noargs_witness :
    (Folder.mkdir folderW10 ⟨["/var/w"], []⟩ []).1.subfolders =
      [("k", Folder.mk "k" "/var/w" [] []), (".", Folder.mk "." "/var/w" [] [])] ∧
    (Folder.mkdir folderW10 ⟨["/var/w"], []⟩ []).2 = ⟨["/var/w"], []⟩ := by
  have h := c10_mkdir_noargs folderW10 ⟨["/var/w"], []⟩
    (by simp [folderW10, lookupA]) (by simp [folderW10, Folder.dir, pjoin])
  refine ⟨?_, h.2.2⟩
  rw [h.1]
  simp [folderW10, Folder.dir, pjoin]

/-! ## Claim C4: destructive remove -/

/-- All keys of a subfolder map are space-free (true of sanitized keys). -/
def noSpaceKeys (m : List (String × Folder)) : Prop :=
  ∀ k ∈ keysA m, ∀ c ∈ k.data, c ≠ ' '

theorem underscore_mem_of_uts_ne (s : String) (h : underToSpace s ≠ s) :
    '_' ∈ s.data := by
  by_contra hc
  exact h (underToSpace_eq_self s (fun c hcm hce => hc (hce ▸ hcm)))

theorem space_mem_uts (s : String) (h : '_' ∈ s.data) :
    ' ' ∈ (underToSpace s).data := by
  have := List.mem_map_of_mem swapUS h
  simpa [underToSpace, mapStr, swapUS] using this

theorem keysA_eraseA_subset {α : Type} (m : List (String × α)) (k' k : String)
    (h : k ∈ keysA (eraseA m k')) : k ∈ keysA m := by
  simp only [keysA, List.mem_map] at h ⊢
  obtain ⟨x, hx, hk⟩ := h
  exact ⟨x, mem_eraseA m k' x hx, hk⟩

theorem noSpaceKeys_eraseA (m : List (String × Folder)) (k' : String)
    (h : noSpaceKeys m) : noSpaceKeys (eraseA m k') := by
  intro k hk
  exact h k (keysA_eraseA_subset m k' k hk)

/-- If a space-free-keyed map has no entry at `wU`, it has none at
`underToSpace wU` either: either the two coincide, or the latter contains a
space and can be no key. -/
theorem lookupA_uts_none (m : List (String × Folder)) (wU : String)
    (hns : noSpaceKeys m) (hw : lookupA m wU = none) :
    lookupA m (underToSpace wU) = none := by
  by_cases heq : underToSpace wU = wU
  · rw [heq]; exact hw
  · rw [lookupA_none_iff]
    intro hmem
    have hsp : ' ' ∈ (underToSpace wU).data :=
      space_mem_uts wU (underscore_mem_of_uts_ne wU heq)
    exact hns (underToSpace wU) hmem ' ' hsp rfl

/-- Concrete node for the C4 counterexample: a subfolder and a file whose
raw names (`a_txt` and `a.txt`) sanitize to the same key `a_txt` — a state
the loader produces for a directory containing both. -/
def folderC4 : Folder :=
  Folder.mk "r" "/p" [("a_txt", Folder.mk "a_txt" "/p/r" [] [])]
    [("a_txt", "/p/r/a.txt")]

/-- C4 counterexample: removing subfolder key `a_txt` deletes the subfolder
entry, yet the subsequent lookup of the removed key does not fail with
NotFound — it returns the same-keyed `files` entry. -/
theorem c4_counterexample :
    lookupA folderC4.subfolders (sanitizeDir "a_txt") =
      some (Folder.mk "a_txt" "/p/r" [] []) ∧
    lookupA (Folder.remove folderC4 ⟨["/p/r", "/p/r/a_txt"], ["/p/r/a.txt"]⟩
        "a_txt").1.subfolders "a_txt" = none ∧
    Folder.getattr (Folder.remove folderC4 ⟨["/p/r", "/p/r/a_txt"], ["/p/r/a.txt"]⟩
        "a_txt").1 "a_txt" = .ok (.filepath "/p/r/a.txt") := by
  refine ⟨?_, ?_, ?_⟩
  · simp [folderC4, sanitizeDir, mapStr, swapSU, lookupA]
  · simp [folderC4, Folder.remove, sanitizeDir, mapStr, swapSU, lookupA, eraseA]
  · simp [folderC4, Folder.remove, Folder.getattr, sanitizeDir, underToSpace,
      mapStr, swapSU, swapUS, lookupA, eraseA]

/-- C4 amended: with `wU` the target with spaces replaced by underscores —
if `wU` is a `subfolders` key, `remove` deletes from the filesystem the whole
subtree under the child's directory, deletes the `wU` entry from
`subfolders`, leaves `files` unchanged, and reports success naming the
target with underscores replaced by spaces; else if `wU` is a `files` key it
deletes that single file from disk and the `wU` entry from `files`.
Afterwards lookup of the removed key fails with NotFound, **provided** the
key does not also remain in the other mapping: a same-key `files` entry is
returned instead (the counterexample).  Key-uniqueness (`Nodup`) and
space-freeness of subfolder keys are the dict and sanitization invariants of
reachable states. -/
theorem c4_remove (f : Folder) (fs : FSState) (target : String) :
    (∀ c, lookupA f.subfolders (sanitizeDir target) = some c →
      (Folder.remove f fs target).1.subfolders =
        eraseA f.subfolders (sanitizeDir target) ∧
      (Folder.remove f fs target).1.files = f.files ∧
      (∀ q, pathUnder (pjoin f.dir c.name) q = true →
        q ∉ (Folder.remove f fs target).2.1.dirs ∧
        q ∉ (Folder.remove f fs target).2.1.fls) ∧
      (Folder.remove f fs target).2.2 =
        "Subfolder '" ++ underToSpace target ++ "' has been removed from '" ++
          f.dir ++ "'" ∧
      ((keysA f.subfolders).Nodup → noSpaceKeys f.subfolders →
        lookupA f.files (sanitizeDir target) = none →
        (Folder.remove f fs target).1.getattr (sanitizeDir target) =
          .error ("'" ++ sanitizeDir target ++ "' not found in folder '" ++
            f.name ++ "'"))) ∧
    (lookupA f.subfolders (sanitizeDir target) = none →
      ∀ q0, lookupA f.files (sanitizeDir target) = some q0 →
      (Folder.remove f fs target).1.files = eraseA f.files (sanitizeDir target) ∧
      (Folder.remove f fs target).1.subfolders = f.subfolders ∧
      q0 ∉ (Folder.remove f fs target).2.1.fls ∧
      (Folder.remove f fs target).2.1.dirs = fs.dirs ∧
      (Folder.remove f fs target).2.2 =
        "File '" ++ underToSpace target ++ "' has been removed from '" ++
          f.dir ++ "'" ∧
      ((keysA f.files).Nodup → noSpaceKeys f.subfolders →
        (Folder.remove f fs target).1.getattr (sanitizeDir target) =
          .error ("'" ++ sanitizeDir target ++ "' not found in folder '" ++
            f.name ++ "'"))) := by
  constructor
  · intro c hc
    have hrw : Folder.remove f fs target =
        (Folder.mk f.name f.parent_path (eraseA f.subfolders (sanitizeDir target)) f.files,
         rmtree fs (pjoin f.dir c.name),
         "Subfolder '" ++ underToSpace target ++ "' has been removed from '" ++
           f.dir ++ "'") := by
      simp [Folder.remove, hc]
    refine ⟨by rw [hrw]; rfl, by rw [hrw]; rfl, ?_, by rw [hrw], ?_⟩
    · intro q hq
      rw [hrw]
      simp only [rmtree]
      constructor
      · intro hmem
        have := (List.mem_filter.mp hmem).2
        rw [hq] at this
        cases this
      · intro hmem
        have := (List.mem_filter.mp hmem).2
        rw [hq] at this
        cases this
    · intro hnd hns hnf
      rw [hrw]
      have h1 : lookupA (eraseA f.subfolders (sanitizeDir target))
          (underToSpace (sanitizeDir target)) = none :=
        lookupA_uts_none _ _ (noSpaceKeys_eraseA _ _ hns)
          (lookupA_eraseA_self _ _ hnd)
      have h2 : lookupA (eraseA f.subfolders (sanitizeDir target))
          (sanitizeDir target) = none := lookupA_eraseA_self _ _ hnd
      simp [Folder.getattr, h1, h2, hnf]
  · intro hno q0 hq0
    have hrw : Folder.remove f fs target =
        (Folder.mk f.name f.parent_path f.subfolders
          (eraseA f.files (sanitizeDir target)),
         removeFileFS fs q0,
         "File '" ++ underToSpace target ++ "' has been removed from '" ++
           f.dir ++ "'") := by
      simp [Folder.remove, hno, hq0]
    refine ⟨by rw [hrw]; rfl, by rw [hrw]; rfl, ?_, by rw [hrw]; rfl, by rw [hrw], ?_⟩
    · rw [hrw]
      simp only [removeFileFS]
      intro hmem
      have := (List.mem_filter.mp hmem).2
      simp at this
    · intro hndf hns
      rw [hrw]
      have h1 : lookupA f.subfolders (underToSpace (sanitizeDir target)) = none :=
        lookupA_uts_none _ _ hns hno
      have h3 : lookupA (eraseA f.files (sanitizeDir target))
          (sanitizeDir target) = none := lookupA_eraseA_self _ _ hndf
      simp [Folder.getattr, h1, hno, h3]

/-- Concrete node for the C4 witness: sanitized key `my_dir` for the child
named `my dir`, plus an unrelated file. -/
def folderW4 : Folder :=
  Folder.mk "r" "/tmp" [("my_dir", Folder.mk "my dir" "/tmp/r" [] [])]
    [("a_txt", "/tmp/r/a.txt")]

theorem c4_remove_witness :
    lookupA folderW4.subfolders (sanitizeDir "my_dir") =
      some (Folder.mk "my dir" "/tmp/r" [] []) ∧
    (Folder.remove folderW4 ⟨["/tmp/r", "/tmp/r/my dir"], ["/tmp/r/a.txt"]⟩
        "my_dir").1.subfolders = [] ∧
    "/tmp/r/my dir" ∉
      (Folder.remove folderW4 ⟨["/tmp/r", "/tmp/r/my dir"], ["/tmp/r/a.txt"]⟩
        "my_dir").2.1.dirs ∧
    (Folder.remove folderW4 ⟨["/tmp/r", "/tmp/r/my dir"], ["/tmp/r/a.txt"]⟩
        "my_dir").1.getattr (sanitizeDir "my_dir") =
      .error "'my_dir' not found in folder 'r'" := by
  have hc : lookupA folderW4.subfolders (sanitizeDir "my_dir") =
      some (Folder.mk "my dir" "/tmp/r" [] []) := by
    simp [folderW4, sanitizeDir, mapStr, swapSU, lookupA]
  have h := (c4_remove folderW4 ⟨["/tmp/r", "/tmp/r/my dir"], ["/tmp/r/a.txt"]⟩
    "my_dir").1 _ hc
  refine ⟨hc, ?_, ?_, ?_⟩
  · rw [h.1]
    simp [folderW4, sanitizeDir, mapStr, swapSU, eraseA]
  · refine (h.2.2.1 "/tmp/r/my dir" (by decide)).1
  · have := h.2.2.2.2 (by decide)
      (by intro k hk; simp [folderW4, keysA] at hk; subst hk; decide)
      (by simp [folderW4, sanitizeDir, mapStr, swapSU, lookupA])
    have hk : sanitizeDir "my_dir" = "my_dir" := by decide
    rw [hk] at this
    simpa [folderW4] using this

/-! ## Claim C3: the mirror invariant -/

theorem mem_of_lookupA {α : Type} :
    ∀ (m : List (String × α)) (k : String) (v : α),
      lookupA m k = some v → (k, v) ∈ m := by
  intro m
  induction m with
  | nil => intro k v h; rw [lookupA] at h; cases h
  | cons hd tl ih =>
    obtain ⟨k', v'⟩ := hd
    intro k v h
    by_cases h1 : k' = k
    · subst h1
      rw [lookupA, if_pos rfl] at h
      obtain rfl : v' = v := by injection h
      exact List.mem_cons_self _ _
    · rw [lookupA, if_neg h1] at h
      exact List.mem_cons_of_mem _ (ih k v h)

theorem loadEntries_fix (p : String) (es : List Entry) (f : Folder) :
    (loadEntries p es f).name = f.name ∧
    (loadEntries p es f).parent_path = f.parent_path := by
  rw [loadEntries_decomp]
  exact ⟨rfl, rfl⟩

theorem validNames_name {es : List Entry} (h : ValidNames es) :
    ∀ e ∈ es, ∀ c ∈ (entryName e).data, c ≠ '/' := by
  induction h with
  | nil => intro e he; cases he
  | file n rest hn hrest ih =>
    intro e he
    rcases List.mem_cons.mp he with he | he
    · subst he; simpa [entryName] using hn
    · exact ih e he
  | dir n sub rest hn hsub hrest ihs ihr =>
    intro e he
    rcases List.mem_cons.mp he with he | he
    · subst he; simpa [entryName] using hn
    · exact ihr e he

theorem goodKeys_empty (n pp : String) : GoodKeys (Folder.mk n pp [] []) :=
  GoodKeys.mk n pp [] [] (by intro kc h; cases h) (by intro kc h; cases h)
    (by intro kv h; cases h)

theorem linked_empty (n pp : String) : Linked (Folder.mk n pp [] []) :=
  Linked.mk n pp [] [] (by intro kc h; cases h) (by intro kc h; cases h)

theorem goodKeys_loadEntries :
    ∀ (es : List Entry) (p : String) (f : Folder), ValidNames es → GoodKeys f →
      GoodKeys (loadEntries p es f)
  | [], p, f, _, hg => by rw [loadEntries]; exact hg
  | .file n :: rest, p, f, hv, hg => by
    have hvr : ValidNames rest := by cases hv with | file _ _ _ h2 => exact h2
    have hn : ∀ c ∈ n.data, c ≠ '/' := by cases hv with | file _ _ h1 _ => exact h1
    rw [loadEntries]
    apply goodKeys_loadEntries rest p _ hvr
    apply goodKeys_intro
    · simpa using goodKeys_sub_key hg
    · simpa using goodKeys_sub_rec hg
    · rw [Folder.files_mk]
      intro kv hkv
      rcases mem_insertA _ _ _ _ hkv with h | h
      · exact goodKeys_file_key hg kv h
      · subst h
        simp only
        rw [basenameStr_pjoin p n hn]
  | .dir n sub :: rest, p, f, hv, hg => by
    have hvr : ValidNames rest := by cases hv with | dir _ _ _ _ _ h3 => exact h3
    have hvs : ValidNames sub := by cases hv with | dir _ _ _ _ h2 _ => exact h2
    rw [loadEntries]
    apply goodKeys_loadEntries rest p _ hvr
    apply goodKeys_intro
    · rw [Folder.subfolders_mk]
      intro kc hkc
      rcases mem_insertA _ _ _ _ hkc with h | h
      · exact goodKeys_sub_key hg kc h
      · subst h
        simp only
        rw [(loadEntries_fix (pjoin p n) sub (Folder.mk n p [] [])).1]
        rfl
    · rw [Folder.subfolders_mk]
      intro kc hkc
      rcases mem_insertA _ _ _ _ hkc with h | h
      · exact goodKeys_sub_rec hg kc h
      · subst h
        exact goodKeys_loadEntries sub (pjoin p n) _ hvs (goodKeys_empty n p)
    · simpa using goodKeys_file_key hg
termination_by es => sizeOf es

theorem goodKeys_mkdirParts :
    ∀ (segs : List String) (f : Folder), GoodKeys f →
      GoodKeys (Folder.mkdirParts f segs) := by
  intro segs
  induction segs with
  | nil => intro f hg; rw [Folder.mkdirParts]; exact hg
  | cons part rest ih =>
    intro f hg
    rcases hl : lookupA f.subfolders (sanitizeDir part) with _ | child
    · simp only [Folder.mkdirParts, hl]
      apply goodKeys_intro
      · rw [Folder.subfolders_mk]
        intro kc hkc
        rcases mem_insertA _ _ _ _ hkc with h | h
        · exact goodKeys_sub_key hg kc h
        · subst h
          simp only
          rw [(mkdirParts_fix rest (Folder.mk part f.dir [] [])).1]
          rfl
      · rw [Folder.subfolders_mk]
        intro kc hkc
        rcases mem_insertA _ _ _ _ hkc with h | h
        · exact goodKeys_sub_rec hg kc h
        · subst h
          exact ih _ (goodKeys_empty part f.dir)
      · simpa using goodKeys_file_key hg
    · simp only [Folder.mkdirParts, hl]
      have hmem : (sanitizeDir part, child) ∈ f.subfolders :=
        mem_of_lookupA _ _ _ hl
      apply goodKeys_intro
      · rw [Folder.subfolders_mk]
        intro kc hkc
        rcases mem_insertA _ _ _ _ hkc with h | h
        · exact goodKeys_sub_key hg kc h
        · subst h
          simp only
          rw [(mkdirParts_fix rest child).1]
          exact goodKeys_sub_key hg _ hmem
      · rw [Folder.subfolders_mk]
        intro kc hkc
        rcases mem_insertA _ _ _ _ hkc with h | h
        · exact goodKeys_sub_rec hg kc h
        · subst h
          exact ih _ (goodKeys_sub_rec hg _ hmem)
      · simpa using goodKeys_file_key hg

theorem goodKeys_remove (f : Folder) (fs : FSState) (nm : String)
    (hg : GoodKeys f) : GoodKeys (Folder.remove f fs nm).1 := by
  rcases h1 : lookupA f.subfolders (sanitizeDir nm) with _ | c
  · rcases h2 : lookupA f.files (sanitizeDir nm) with _ | q
    · simp only [Folder.remove, h1, h2]
      exact hg
    · simp only [Folder.remove, h1, h2]
      apply goodKeys_intro
      · simpa using goodKeys_sub_key hg
      · simpa using goodKeys_sub_rec hg
      · rw [Folder.files_mk]
        intro kv hkv
        exact goodKeys_file_key hg kv (mem_eraseA _ _ _ hkv)
  · simp only [Folder.remove, h1]
    apply goodKeys_intro
    · rw [Folder.subfolders_mk]
      intro kc hkc
      exact goodKeys_sub_key hg kc (mem_eraseA _ _ _ hkc)
    · rw [Folder.subfolders_mk]
      intro kc hkc
      exact goodKeys_sub_rec hg kc (mem_eraseA _ _ _ hkc)
    · simpa using goodKeys_file_key hg

/-- C3: the mirror invariant holds and is preserved by every operation:
`dir()` is always `join(parent_path, name)`; the initial load produces
sanitized keys for every node; `mkdir`, `remove` and `reload` preserve the
sanitized-key invariant of every reachable node. -/
theorem c3_invariant :
    (∀ f : Folder, f.dir = pjoin f.parent_path f.name) ∧
    (∀ (root : String) (es : List Entry), ValidNames es →
      GoodKeys (PathManager.init root es)) ∧
    (∀ (f : Folder) (fs : FSState) (args : List String), GoodKeys f →
      GoodKeys (Folder.mkdir f fs args).1) ∧
    (∀ (f : Folder) (fs : FSState) (nm : String), GoodKeys f →
      GoodKeys (Folder.remove f fs nm).1) ∧
    (∀ (root : String) (es : List Entry) (m : Folder), ValidNames es →
      GoodKeys m → GoodKeys (PathManager.reload root es m)) := by
  refine ⟨fun f => rfl, ?_, ?_, ?_, ?_⟩
  · intro root es hv
    exact goodKeys_loadEntries es root _ hv (goodKeys_empty _ _)
  · intro f fs args hg
    exact goodKeys_mkdirParts _ f hg
  · intro f fs nm hg
    exact goodKeys_remove f fs nm hg
  · intro root es m hv hg
    exact goodKeys_loadEntries es root m hv hg

theorem c3_invariant_witness :
    (Folder.mk "n" "/a" [] []).dir = pjoin "/a" "n" ∧
    GoodKeys (PathManager.init "/r" [Entry.dir "s d" [Entry.file "a.txt"]]) ∧
    GoodKeys (Folder.mkdir (Folder.mk "n" "/a" [] []) ⟨[], []⟩ ["x y"]).1 ∧
    GoodKeys (Folder.remove folderW4 ⟨[], []⟩ "my_dir").1 ∧
    GoodKeys (PathManager.reload "/r" [Entry.file "b.txt"]
      (PathManager.init "/r" [])) := by
  have hv1 : ValidNames [Entry.dir "s d" [Entry.file "a.txt"]] :=
    ValidNames.dir "s d" [Entry.file "a.txt"] [] (by decide)
      (ValidNames.file "a.txt" [] (by decide) ValidNames.nil) ValidNames.nil
  have hgw4 : GoodKeys folderW4 := by
    apply goodKeys_intro
    · intro kc hkc
      simp [folderW4] at hkc
      subst hkc
      decide
    · intro kc hkc
      simp [folderW4] at hkc
      subst hkc
      exact goodKeys_empty _ _
    · intro kv hkv
      simp [folderW4] at hkv
      subst hkv
      decide
  refine ⟨c3_invariant.1 _, c3_invariant.2.1 "/r" _ hv1,
    c3_invariant.2.2.1 _ _ _ (goodKeys_empty "n" "/a"),
    c3_invariant.2.2.2.1 _ _ _ hgw4,
    c3_invariant.2.2.2.2 "/r" _ _
      (ValidNames.file "b.txt" [] (by decide) ValidNames.nil)
      (c3_invariant.2.1 "/r" [] ValidNames.nil)⟩

/-! ## Claim C7: reload idempotence -/

/-- C7: with no filesystem change between the calls, a second `reload`
leaves the mirror exactly as the first left it (proved as full equality of
the mirror, which subsumes equality of every node's key sets).  The `Nodup`
hypotheses are the dict key-uniqueness invariant of the root's mappings. -/
theorem c7_reload_idempotent (root : String) (es : List Entry) (m : Folder)
    (h1 : (keysA m.subfolders).Nodup) (h2 : (keysA m.files).Nodup) :
    PathManager.reload root es (PathManager.reload root es m) =
      PathManager.reload root es m := by
  rw [PathManager.reload, PathManager.reload]
  rw [loadEntries_decomp es root (loadEntries root es m), loadEntries_decomp es root m]
  simp only [Folder.name_mk, Folder.parent_path_mk, Folder.subfolders_mk, Folder.files_mk]
  rw [foldIns_foldIns_self _ _ h1, foldIns_foldIns_self _ _ h2]

/-- Concrete mirror used by the C7 witness, shaped like a loaded tree. -/
def folderW7 : Folder :=
  Folder.mk "r" "/" [("old", Folder.mk "old" "/r" [] [])] [("f_txt", "/r/f.txt")]

theorem c7_reload_idempotent_witness :
    PathManager.reload "/r" [Entry.file "x.txt"]
      (PathManager.reload "/r" [Entry.file "x.txt"] folderW7) =
    PathManager.reload "/r" [Entry.file "x.txt"] folderW7 :=
  c7_reload_idempotent "/r" [Entry.file "x.txt"] folderW7 (by decide) (by decide)

/-! ## Claim C6: non-clearing reload -/

/-- The old and the new scan of the C6 counterexample: the file
`/r/sub/a.txt` is deleted on disk between the load and the reload, while its
parent directory `sub` still exists. -/
def fsOld : List Entry := [Entry.dir "sub" [Entry.file "a.txt"]]

def fsNew : List Entry := [Entry.dir "sub" []]

/-- C6 counterexample: the stale entry `a_txt` inside subfolder `sub` is not
overwritten by any same-key entry of the rescan, yet it does not remain in
the mirror: the rescan replaces the whole `sub` node by a freshly built one,
discarding the stale file entry. -/
theorem c6_counterexample :
    lookupA (PathManager.init "/r" fsOld).subfolders "sub" =
      some (Folder.mk "sub" "/r" [] [("a_txt", "/r/sub/a.txt")]) ∧
    (∀ c, lookupA (PathManager.reload "/r" fsNew
        (PathManager.init "/r" fsOld)).subfolders "sub" = some c →
      lookupA c.files "a_txt" = none) := by
  have h1 : PathManager.init "/r" fsOld =
      Folder.mk "r" "/" [("sub", Folder.mk "sub" "/r" [] [("a_txt", "/r/sub/a.txt")])] [] := by
    simp [PathManager.init, fsOld, loadEntries, basenameStr, dirnameStr, pjoin,
      sanitizeDir, sanitizeFile, mapStr, swapSU, swapDU, insertA]
  have h2 : PathManager.reload "/r" fsNew (PathManager.init "/r" fsOld) =
      Folder.mk "r" "/" [("sub", Folder.mk "sub" "/r" [] [])] [] := by
    rw [h1]
    simp [PathManager.reload, fsNew, loadEntries, pjoin, sanitizeDir, mapStr,
      swapSU, insertA]
  constructor
  · rw [h1]
    simp [lookupA]
  · intro c hc
    rw [h2] at hc
    simp [lookupA] at hc
    rw [← hc]
    simp [lookupA]

/-- C6 amended: `reload` merges the rescan into the existing **root** node's
mappings without clearing them: a root-level entry whose key is hit by the
rescan is overwritten by the last same-key rescan entry (for a directory, a
freshly rebuilt node that discards any stale entries below it); a root-level
entry whose key the rescan does not produce stays, stale or not.  Stale
entries deeper in the tree survive only inside such retained stale
subtrees. -/
theorem c6_reload_merge (root : String) (es : List Entry) (m : Folder) :
    (∀ k, lookupA (PathManager.reload root es m).subfolders k =
      orO (lookupA (kvDirs root es).reverse k) (lookupA m.subfolders k)) ∧
    (∀ k, lookupA (PathManager.reload root es m).files k =
      orO (lookupA (kvFiles root es).reverse k) (lookupA m.files k)) ∧
    (∀ k c, lookupA m.subfolders k = some c → k ∉ dirKeys es →
      lookupA (PathManager.reload root es m).subfolders k = some c) ∧
    (∀ k v, lookupA m.files k = some v → k ∉ fileKeys es →
      lookupA (PathManager.reload root es m).files k = some v) := by
  have hs : ∀ k, lookupA (PathManager.reload root es m).subfolders k =
      orO (lookupA (kvDirs root es).reverse k) (lookupA m.subfolders k) := by
    intro k
    rw [PathManager.reload, loadEntries_decomp, Folder.subfolders_mk, lookupA_foldIns]
  have hf : ∀ k, lookupA (PathManager.reload root es m).files k =
      orO (lookupA (kvFiles root es).reverse k) (lookupA m.files k) := by
    intro k
    rw [PathManager.reload, loadEntries_decomp, Folder.files_mk, lookupA_foldIns]
  refine ⟨hs, hf, ?_, ?_⟩
  · intro k c hm hk
    have hnone : lookupA (kvDirs root es).reverse k = none := by
      rw [lookupA_none_iff]
      intro hmem
      apply hk
      rw [← keysA_kvDirs root es]
      have : keysA ((kvDirs root es).reverse) = (keysA (kvDirs root es)).reverse := by
        simp [keysA]
      rw [this] at hmem
      exact List.mem_reverse.mp hmem
    rw [hs k, hnone, hm]
    rfl
  · intro k v hm hk
    have hnone : lookupA (kvFiles root es).reverse k = none := by
      rw [lookupA_none_iff]
      intro hmem
      apply hk
      rw [← keysA_kvFiles root es]
      have : keysA ((kvFiles root es).reverse) = (keysA (kvFiles root es)).reverse := by
        simp [keysA]
      rw [this] at hmem
      exact List.mem_reverse.mp hmem
    rw [hf k, hnone, hm]
    rfl

theorem c6_reload_merge_witness :
    lookupA (PathManager.reload "/r" fsNew folderW7).subfolders "old" =
      some (Folder.mk "old" "/r" [] []) ∧
    lookupA (PathManager.reload "/r" fsNew folderW7).files "f_txt" =
      some "/r/f.txt" := by
  exact ⟨(c6_reload_merge "/r" fsNew folderW7).2.2.1 "old" _ (by rfl) (by decide),
    (c6_reload_merge "/r" fsNew folderW7).2.2.2 "f_txt" _ (by rfl) (by decide)⟩

/-! ## Claim C2: load correctness -/

theorem allDirs_mk (n pp : String) (subs : List (String × Folder))
    (fls : List (String × String)) :
    Folder.allDirs (Folder.mk n pp subs fls) = pjoin pp n :: allDirsSubs subs := by
  rw [Folder.allDirs]

theorem allDirsSubs_nil : allDirsSubs [] = [] := by
  rw [allDirsSubs]

theorem allDirsSubs_cons (k : String) (c : Folder) (rest : List (String × Folder)) :
    allDirsSubs ((k, c) :: rest) = c.allDirs ++ allDirsSubs rest := by
  rw [allDirsSubs]

/-- On a fresh (empty-mapped) folder, one scan level just deposits the
scanned entries: no merging happens. -/
theorem loaded_maps (p : String) (es : List Entry) (n pp : String)
    (hnd : (dirKeys es).Nodup) (hnf : (fileKeys es).Nodup) :
    loadEntries p es (Folder.mk n pp [] []) =
      Folder.mk n pp (kvDirs p es) (kvFiles p es) := by
  rw [loadEntries_decomp]
  simp only [Folder.name_mk, Folder.parent_path_mk, Folder.subfolders_mk, Folder.files_mk]
  rw [foldIns_append_of_disjoint (kvDirs p es) [] (by intro k hk; simp)
      (by rw [keysA_kvDirs]; exact hnd),
    foldIns_append_of_disjoint (kvFiles p es) [] (by intro k hk; simp)
      (by rw [keysA_kvFiles]; exact hnf)]
  simp

theorem allDirsSubs_kv :
    ∀ (es : List Entry) (p : String), GoodFS es →
      allDirsSubs (kvDirs p es) = entryDirs p es
  | [], p, _ => by rw [kvDirs, entryDirs, allDirsSubs]
  | .file n :: rest, p, h => by
    rw [kvDirs, entryDirs]
    exact allDirsSubs_kv rest p (goodFS_tail h)
  | .dir n sub :: rest, p, h => by
    have hsub : GoodFS sub := goodFS_sub h (List.mem_cons_self _ _)
    rw [kvDirs, entryDirs, allDirsSubs_cons]
    have hload : Folder.allDirs (loadEntries (pjoin p n) sub (Folder.mk n p [] [])) =
        pjoin p n :: entryDirs (pjoin p n) sub := by
      rw [loaded_maps _ _ _ _ (goodFS_dir_nodup hsub) (goodFS_file_nodup hsub),
        allDirs_mk, allDirsSubs_kv sub (pjoin p n) hsub]
    rw [hload, allDirsSubs_kv rest p (goodFS_tail h)]
    simp
termination_by es => sizeOf es

/-- Every file of the tree is reachable in the loaded mirror: follow the raw
directory names under their sanitized keys, then look the file up under its
sanitized key; the stored value is the file's absolute path. -/
theorem followRaw_files {es : List Entry} {pos : List String} {nm : String}
    (hf : FileAt es pos nm) :
    ∀ (p n pp : String), GoodFS es →
      ∃ node, followRaw (loadEntries p es (Folder.mk n pp [] [])) pos = some node ∧
        lookupA node.files (sanitizeFile nm) = some (pjoin (joinAll p pos) nm) := by
  induction hf with
  | here es nm hmem =>
    intro p n pp hg
    refine ⟨loadEntries p es (Folder.mk n pp [] []), by rw [followRaw], ?_⟩
    rw [loaded_maps _ _ _ _ (goodFS_dir_nodup hg) (goodFS_file_nodup hg),
      Folder.files_mk, joinAll]
    exact lookupA_of_mem_nodup _ _ _
      (by rw [keysA_kvFiles]; exact goodFS_file_nodup hg)
      (mem_kvFiles p nm es hmem)
  | there es d sub pos' nm hmem hf' ih =>
    intro p n pp hg
    have hlk : lookupA (kvDirs p es) (sanitizeDir d) =
        some (loadEntries (pjoin p d) sub (Folder.mk d p [] [])) :=
      lookupA_of_mem_nodup _ _ _
        (by rw [keysA_kvDirs]; exact goodFS_dir_nodup hg)
        (mem_kvDirs p d sub es hmem)
    obtain ⟨node, hfol, hfile⟩ := ih (pjoin p d) d p (goodFS_sub hg hmem)
    refine ⟨node, ?_, by rw [joinAll]; exact hfile⟩
    rw [loaded_maps _ _ _ _ (goodFS_dir_nodup hg) (goodFS_file_nodup hg), followRaw]
    rw [Folder.subfolders_mk, hlk]
    exact hfol

/-- C2 amended: for every well-formed tree (valid names; at every level no
two sibling directories and no two sibling files sanitize to the same key)
and normal root path, the loader produces one node per directory — `dir()`
over all nodes enumerates exactly `root` and every directory path of the
tree — and every file is stored in its parent's node under its sanitized key,
mapped to its absolute path.  Without the collision condition this fails
(see the counterexample): a same-key sibling silently overwrites the earlier
entry. -/
theorem c2_load (root : String) (es : List Entry) (hg : GoodFS es)
    (hroot : pjoin (dirnameStr root) (basenameStr root) = root) :
    (PathManager.init root es).allDirs = root :: entryDirs root es ∧
    (∀ pos nm, FileAt es pos nm →
      ∃ node, followRaw (PathManager.init root es) pos = some node ∧
        lookupA node.files (sanitizeFile nm) = some (pjoin (joinAll root pos) nm)) := by
  constructor
  · rw [PathManager.init,
      loaded_maps _ _ _ _ (goodFS_dir_nodup hg) (goodFS_file_nodup hg), allDirs_mk,
      hroot, allDirsSubs_kv es root hg]
  · intro pos nm hf
    rw [PathManager.init]
    exact followRaw_files hf root (basenameStr root) (dirnameStr root) hg

/-- The directory tree of the spec's worked scenario: root `/tmp/r`
containing directory `Sub One` with file `a.txt` inside. -/
def fsW2 : List Entry := [Entry.dir "Sub One" [Entry.file "a.txt"]]

theorem c2_load_witness :
    (PathManager.init "/tmp/r" fsW2).allDirs = ["/tmp/r", "/tmp/r/Sub One"] ∧
    (∃ node, followRaw (PathManager.init "/tmp/r" fsW2) ["Sub One"] = some node ∧
      lookupA node.files "a_txt" = some "/tmp/r/Sub One/a.txt") := by
  have hg : GoodFS fsW2 := by
    refine GoodFS.mk _ (by decide) (by decide) ?_ (by decide)
    intro n sub h
    simp [fsW2] at h
    obtain ⟨rfl, rfl⟩ := h
    refine GoodFS.mk _ (by decide) (by decide) ?_ (by decide)
    intro n sub h
    simp at h
  have h := c2_load "/tmp/r" fsW2 hg (by decide)
  constructor
  · rw [h.1]
    simp [fsW2, entryDirs, pjoin]
  · have hf : FileAt fsW2 ["Sub One"] "a.txt" :=
      FileAt.there fsW2 "Sub One" [Entry.file "a.txt"] [] "a.txt" (by simp [fsW2])
        (FileAt.here [Entry.file "a.txt"] "a.txt" (by simp))
    have := h.2 ["Sub One"] "a.txt" hf
    have hj : pjoin (joinAll "/tmp/r" ["Sub One"]) "a.txt" = "/tmp/r/Sub One/a.txt" := by
      decide
    have hsf : sanitizeFile "a.txt" = "a_txt" := by decide
    rw [hj, hsf] at this
    exact this

/-- C2 counterexample: sibling directories `a b` and `a_b` sanitize to the
same key `a_b`; the second overwrites the first, so `/r/a b` is a directory
of the tree but no node of the mirror has it as its `dir()`. -/
theorem c2_counterexample :
    ("/r/a b" ∈ "/r" :: entryDirs "/r" [Entry.dir "a b" [], Entry.dir "a_b" []]) ∧
    ("/r/a b" ∉
      (PathManager.init "/r" [Entry.dir "a b" [], Entry.dir "a_b" []]).allDirs) := by
  have h1 : PathManager.init "/r" [Entry.dir "a b" [], Entry.dir "a_b" []] =
      Folder.mk "r" "/" [("a_b", Folder.mk "a_b" "/r" [] [])] [] := by
    simp [PathManager.init, loadEntries, basenameStr, dirnameStr, pjoin,
      sanitizeDir, mapStr, swapSU, insertA]
  constructor
  · simp [entryDirs, pjoin]
  · rw [h1, allDirs_mk, allDirsSubs_cons, allDirs_mk, allDirsSubs_nil]
    simp [pjoin]

/-! ## Claim C5: mkdir round-trip -/

theorem linked_mkdirParts :
    ∀ (segs : List String) (f : Folder), Linked f →
      Linked (Folder.mkdirParts f segs) := by
  intro segs
  induction segs with
  | nil => intro f hl; rw [Folder.mkdirParts]; exact hl
  | cons part rest ih =>
    intro f hl
    rcases hl2 : lookupA f.subfolders (sanitizeDir part) with _ | child
    · simp only [Folder.mkdirParts, hl2]
      apply linked_intro
      · rw [Folder.subfolders_mk]
        intro kc hkc
        have hdir : (Folder.mk f.name f.parent_path
            (insertA f.subfolders (sanitizeDir part)
              (Folder.mkdirParts (Folder.mk part f.dir [] []) rest)) f.files).dir =
            f.dir := rfl
        rw [hdir]
        rcases mem_insertA _ _ _ _ hkc with h | h
        · exact linked_sub_pp hl kc h
        · subst h
          simp only
          rw [(mkdirParts_fix rest (Folder.mk part f.dir [] [])).2.1]
          rfl
      · rw [Folder.subfolders_mk]
        intro kc hkc
        rcases mem_insertA _ _ _ _ hkc with h | h
        · exact linked_sub_rec hl kc h
        · subst h
          exact ih _ (linked_empty part f.dir)
    · simp only [Folder.mkdirParts, hl2]
      have hmem : (sanitizeDir part, child) ∈ f.subfolders :=
        mem_of_lookupA _ _ _ hl2
      apply linked_intro
      · rw [Folder.subfolders_mk]
        intro kc hkc
        have hdir : (Folder.mk f.name f.parent_path
            (insertA f.subfolders (sanitizeDir part)
              (Folder.mkdirParts child rest)) f.files).dir = f.dir := rfl
        rw [hdir]
        rcases mem_insertA _ _ _ _ hkc with h | h
        · exact linked_sub_pp hl kc h
        · subst h
          simp only
          rw [(mkdirParts_fix rest child).2.1]
          exact linked_sub_pp hl _ hmem
      · rw [Folder.subfolders_mk]
        intro kc hkc
        rcases mem_insertA _ _ _ _ hkc with h | h
        · exact linked_sub_rec hl kc h
        · subst h
          exact ih _ (linked_sub_rec hl _ hmem)

theorem mem_makedirsFS (fs : FSState) (base : String) (segs : List String) :
    ∀ q ∈ mchain base segs, q ∈ (makedirsFS fs base segs).dirs := by
  intro q hq
  simp only [makedirsFS]
  by_cases h : q ∈ fs.dirs
  · exact List.mem_append_left _ h
  · apply List.mem_append_right
    apply List.mem_filter.mpr
    refine ⟨hq, ?_⟩
    have hc : fs.dirs.contains q = false := by
      rcases hcc : fs.dirs.contains q with _ | _
      · rfl
      · exact absurd (by simpa using hcc) h
    rw [hc]
    rfl

/-- The in-memory round trip: after the `mkdir` walk, chaining attribute
lookups along the same plain segments reaches a node whose `dir()` is the
join of the starting node's `dir()` with the segments. -/
theorem mkdirParts_chain :
    ∀ (segs : List String) (f : Folder),
      (∀ s ∈ segs, plainSeg s) → GoodKeys f → Linked f →
      ∃ g, lookupChainF (Folder.mkdirParts f segs) segs = some g ∧
        g.dir = joinAll f.dir segs := by
  intro segs
  induction segs with
  | nil =>
    intro f _ _ _
    refine ⟨f, ?_, by rw [joinAll]⟩
    rw [Folder.mkdirParts, lookupChainF]
  | cons part rest ih =>
    intro f hp hg hl
    have hps : plainSeg part := hp part (List.mem_cons_self _ _)
    have hclean : sanitizeDir part = part :=
      sanitizeDir_eq_self part (fun c hc => (hps.2.2.2 c hc).2.1)
    have huts : underToSpace part = part :=
      underToSpace_eq_self part (fun c hc => (hps.2.2.2 c hc).2.2)
    have hprest : ∀ s ∈ rest, plainSeg s :=
      fun s hs => hp s (List.mem_cons_of_mem _ hs)
    rcases hl2 : lookupA f.subfolders (sanitizeDir part) with _ | child
    · simp only [Folder.mkdirParts, hl2]
      obtain ⟨g, hcg, hgd⟩ :=
        ih (Folder.mk part f.dir [] []) hprest (goodKeys_empty part f.dir)
          (linked_empty part f.dir)
      refine ⟨g, ?_, ?_⟩
      · rw [lookupChainF]
        have hget : (Folder.mk f.name f.parent_path
            (insertA f.subfolders (sanitizeDir part)
              (Folder.mkdirParts (Folder.mk part f.dir [] []) rest))
            f.files).getattr part =
            .ok (.subfolder (Folder.mkdirParts (Folder.mk part f.dir [] []) rest)) := by
          simp [Folder.getattr, huts, hclean, lookupA_insert_self]
        rw [hget]
        exact hcg
      · rw [joinAll, hgd]
        have : (Folder.mk part f.dir [] []).dir = pjoin f.dir part := rfl
        rw [this]
    · simp only [Folder.mkdirParts, hl2]
      have hmem : (sanitizeDir part, child) ∈ f.subfolders :=
        mem_of_lookupA _ _ _ hl2
      have hname : child.name = part := by
        have hk := goodKeys_sub_key hg _ hmem
        apply sanitizeDir_inv
        · rw [← hk]
          exact hclean
        · intro c hc
          exact (hps.2.2.2 c hc).2.2
      have hpp : child.parent_path = f.dir := linked_sub_pp hl _ hmem
      obtain ⟨g, hcg, hgd⟩ :=
        ih child hprest (goodKeys_sub_rec hg _ hmem) (linked_sub_rec hl _ hmem)
      refine ⟨g, ?_, ?_⟩
      · rw [lookupChainF]
        have hget : (Folder.mk f.name f.parent_path
            (insertA f.subfolders (sanitizeDir part)
              (Folder.mkdirParts child rest)) f.files).getattr part =
            .ok (.subfolder (Folder.mkdirParts child rest)) := by
          simp [Folder.getattr, huts, hclean, lookupA_insert_self]
        rw [hget]
        exact hcg
      · rw [joinAll, hgd]
        have : child.dir = pjoin f.dir part := by
          rw [Folder.dir, hname, hpp]
        rw [this]

/-- C5: on plain segments, `mkdir` creates the whole directory chain on disk
(idempotently over existing prefixes), chained lookup of the segments from
the node resolves to a node whose `dir()` is the join of the original
`dir()` with the segments, parent linkage holds for every node (so each
newly created node's `parent_path` is its parent's `dir()`), and an existing
child for the first segment is reused (same `name`, `parent_path` and
`files`) rather than replaced.  `GoodKeys` and `Linked` are the invariants
of reachable mirrors. -/
theorem c5_mkdir_roundtrip (f : Folder) (fs : FSState) (s1 : String)
    (rest : List String) (hp : ∀ s ∈ s1 :: rest, plainSeg s)
    (hg : GoodKeys f) (hl : Linked f) :
    (∃ g, lookupChainF (Folder.mkdir f fs (s1 :: rest)).1 (s1 :: rest) = some g ∧
      g.dir = joinAll f.dir (s1 :: rest)) ∧
    (∀ q ∈ mchain f.dir (s1 :: rest), q ∈ (Folder.mkdir f fs (s1 :: rest)).2.dirs) ∧
    Linked (Folder.mkdir f fs (s1 :: rest)).1 ∧
    (∀ c, lookupA f.subfolders (sanitizeDir s1) = some c →
      ∃ c', lookupA (Folder.mkdir f fs (s1 :: rest)).1.subfolders (sanitizeDir s1) =
          some c' ∧
        c'.name = c.name ∧ c'.parent_path = c.parent_path ∧ c'.files = c.files) := by
  have hfst : (Folder.mkdir f fs (s1 :: rest)).1 = Folder.mkdirParts f (s1 :: rest) := rfl
  have hsnd : (Folder.mkdir f fs (s1 :: rest)).2 = makedirsFS fs f.dir (s1 :: rest) := rfl
  refine ⟨?_, ?_, ?_, ?_⟩
  · rw [hfst]
    exact mkdirParts_chain (s1 :: rest) f hp hg hl
  · intro q hq
    rw [hsnd]
    exact mem_makedirsFS fs f.dir (s1 :: rest) q hq
  · rw [hfst]
    exact linked_mkdirParts (s1 :: rest) f hl
  · intro c hc
    rw [hfst]
    simp only [Folder.mkdirParts, hc]
    refine ⟨Folder.mkdirParts c rest, ?_, (mkdirParts_fix rest c).1,
      (mkdirParts_fix rest c).2.1, (mkdirParts_fix rest c).2.2⟩
    rw [Folder.subfolders_mk]
    exact lookupA_insert_self _ _ _

theorem c5_mkdir_roundtrip_witness :
    (∃ g, lookupChainF
        (Folder.mkdir (Folder.mk "r" "/tmp" [] []) ⟨["/tmp/r"], []⟩
          ["a", "b", "c"]).1 ["a", "b", "c"] = some g ∧
      g.dir = "/tmp/r/a/b/c") ∧
    "/tmp/r/a/b/c" ∈
      (Folder.mkdir (Folder.mk "r" "/tmp" [] []) ⟨["/tmp/r"], []⟩
        ["a", "b", "c"]).2.dirs := by
  have hp : ∀ s ∈ ["a", "b", "c"], plainSeg s := by
    intro s hs
    simp only [List.mem_cons] at hs
    rcases hs with rfl | rfl | rfl | h
    · exact ⟨by decide, by decide, by decide, by decide⟩
    · exact ⟨by decide, by decide, by decide, by decide⟩
    · exact ⟨by decide, by decide, by decide, by decide⟩
    · cases h
  have h := c5_mkdir_roundtrip (Folder.mk "r" "/tmp" [] []) ⟨["/tmp/r"], []⟩
    "a" ["b", "c"] hp (goodKeys_empty "r" "/tmp") (linked_empty "r" "/tmp")
  constructor
  · obtain ⟨g, hcg, hgd⟩ := h.1
    refine ⟨g, hcg, ?_⟩
    rw [hgd]
    decide
  · apply h.2.1
    decide
